import Mathlib

/-!
# Verification of the express_rs routing core

A shallow embedding of the request-routing and middleware-dispatch engine of
the `express_rs` repository, together with theorems settling the frozen claims
about it.

Embedded components:
* `src/router/middleware.rs` — the path-matching trie (`MiddlewareRouter`):
  `parse_segments`, `split_path`, `insert`, `at`, `get_all_matches`/`recurse`.
* `src/router/interner.rs` — the symbol `Interner`
  (`get_or_intern`, `get`, `resolve`).
* `src/router.rs` — the `Router` (`route`, `use_with`, `handle`,
  `create_next`), with `src/router/route.rs` (`Route` and its generated
  method-registration functions) and `src/handler/request.rs` (`set_params`).

Rust `HashMap`s keyed by strings are modelled as association lists with
replace-on-insert semantics; only lookup/membership of these maps is relevant
to any claim.  Handler bodies are opaque external collaborators: a handler is
modelled as a pure state transformer on the request/response pair that also
reports whether it invoked its `next` continuation, which is exactly the
observable that `Router::create_next` exposes to the dispatcher.
-/

namespace ExpressRs

/-- Lookup in an association list, first match wins (Rust `HashMap::get`). -/
def assocGet {α β : Type} [DecidableEq α] : List (α × β) → α → Option β
  | [], _ => none
  | (k, v) :: rest, key => if k = key then some v else assocGet rest key

/-- Insert with replacement (Rust `HashMap::insert`): overwrite the existing
binding for the key if present, otherwise append a new binding. -/
def assocSet {α β : Type} [DecidableEq α] : List (α × β) → α → β → List (α × β)
  | [], key, val => [(key, val)]
  | (k, v) :: rest, key, val =>
    if k = key then (k, val) :: rest else (k, v) :: assocSet rest key val

/-- Removal (Rust `HashMap::remove`): drop every binding for the key. -/
def assocRemove {α β : Type} [DecidableEq α] : List (α × β) → α → List (α × β)
  | [], _ => []
  | (k, v) :: rest, key =>
    if k = key then assocRemove rest key else (k, v) :: assocRemove rest key

/-! ## Path segments (`src/router/middleware.rs`, `Segment` and parsing) -/

/-- A parsed segment in a route path (`enum Segment` in middleware.rs). -/
inductive Segment where
  | Static (s : String)
  | Param (s : String)
  | ParamCatchAll (s : String)
  | Mixed (pre : String) (param : String) (suffix : String)
  | Wildcard
deriving DecidableEq, Repr

/-- Drop leading `'/'` characters of a character list. -/
def dropLeadingSlashes (cs : List Char) : List Char :=
  cs.dropWhile (fun c => c = '/')

/-- Drop trailing `'/'` characters of a character list. -/
def dropTrailingSlashes (cs : List Char) : List Char :=
  (cs.reverse.dropWhile (fun c => c = '/')).reverse

/-- Rust `path.trim_matches('/')`: remove leading and trailing slashes. -/
def trimSlashes (path : String) : String :=
  ⟨dropLeadingSlashes (dropTrailingSlashes path.data)⟩

/-- Rust `str::split('/')`: cut a character list at every slash, keeping
empty pieces. -/
def splitSlash : List Char → List (List Char)
  | [] => [[]]
  | c :: rest =>
    if c = '/' then [] :: splitSlash rest
    else
      match splitSlash rest with
      | [] => [[c]]
      | piece :: pieces => (c :: piece) :: pieces

/-- `split_path` (middleware.rs): trim slashes, split on `'/'`, and drop empty
segments. -/
def split_path (path : String) : List String :=
  (((trimSlashes path).data |> splitSlash).map (fun cs => (⟨cs⟩ : String))).filter
    (fun s => s ≠ "")

/-- Rust `str::starts_with` on character lists. -/
def charsStart : List Char → List Char → Bool
  | [], _ => true
  | _ :: _, [] => false
  | p :: ps, c :: cs => p = c && charsStart ps cs

/-- Rust `str::starts_with`. -/
def strStartsWith (s pre : String) : Bool :=
  charsStart pre.data s.data

/-- Rust `str::ends_with`. -/
def strEndsWith (s suf : String) : Bool :=
  charsStart suf.data.reverse s.data.reverse

/-- Rust `[&str]::join("/")`. -/
def joinSlash : List String → String
  | [] => ""
  | [s] => s
  | s :: rest => s ++ "/" ++ joinSlash rest

/-- Index of the first occurrence of a character in a list, if any
(Rust `str::find(char)`). -/
def charIndex (c : Char) : List Char → Option Nat
  | [] => none
  | x :: rest =>
    if x = c then some 0 else (charIndex c rest).map (· + 1)

/-- Slice of a string by character positions `[start, stop)`
(Rust `&part[start..stop]`, clamped). -/
def strSlice (s : String) (start stop : Nat) : String :=
  ⟨(s.data.take stop).drop start⟩

/-- Parse one path part into a `Segment` (one iteration of the `for part in
parts` loop of `parse_segments` in middleware.rs). -/
def parse_part (part : String) : Except String Segment :=
  if part = "*" then
    .ok .Wildcard
  else if strStartsWith part "\x7b\x7b" ∧ strEndsWith part "\x7d\x7d" then
    .ok (.Static (strSlice part 1 (part.length - 1)))
  else if part.data.contains '{' ∧ part.data.contains '}' then
    let start := (charIndex '{' part.data).getD 0
    let stop := (charIndex '}' part.data).getD 0
    let pre := strSlice part 0 start
    let param_section := strSlice part (start + 1) stop
    let suffix := strSlice part (stop + 1) part.length
    if param_section = "" then
      .error ("Empty parameter in segment: " ++ part)
    else if pre = "" ∧ suffix = "" then
      if strStartsWith param_section "*" then
        .ok (.ParamCatchAll (strSlice param_section 1 param_section.length))
      else
        .ok (.Param param_section)
    else
      .ok (.Mixed pre param_section suffix)
  else
    .ok (.Static part)

/-- The `for part in parts` loop of `parse_segments`: parse every part in
order, returning the first error. -/
def parseParts : List String → Except String (List Segment)
  | [] => .ok []
  | part :: rest =>
    match parse_part part with
    | .ok seg =>
      match parseParts rest with
      | .ok segs => .ok (seg :: segs)
      | .error e => .error e
    | .error e => .error e

/-- `parse_segments` (middleware.rs): split the path and parse every part,
propagating the first error. -/
def parse_segments (path : String) : Except String (List Segment) :=
  parseParts (split_path path)

/-! ## The routing trie (`MiddlewareRouter`) -/

/-- A single node in the routing tree (`struct Node` in middleware.rs).
`children` is the `HashMap<String, Box<Node>>` of static edges. -/
inductive Node where
  | mk (children : List (String × Node))
       (param : Option (String × Node))
       (catch_all : Option (String × Node))
       (wildcard : Option Node)
       (value : Option (List Nat))

def Node.children : Node → List (String × Node)
  | .mk c _ _ _ _ => c

def Node.param : Node → Option (String × Node)
  | .mk _ p _ _ _ => p

def Node.catch_all : Node → Option (String × Node)
  | .mk _ _ ca _ _ => ca

def Node.wildcard : Node → Option Node
  | .mk _ _ _ w _ => w

def Node.value : Node → Option (List Nat)
  | .mk _ _ _ _ v => v

/-- `Node::default()`. -/
def Node.empty : Node := .mk [] none none none none

def Node.withChildren : Node → List (String × Node) → Node
  | .mk _ p ca w v, c => .mk c p ca w v

def Node.withParam : Node → Option (String × Node) → Node
  | .mk c _ ca w v, p => .mk c p ca w v

def Node.withCatchAll : Node → Option (String × Node) → Node
  | .mk c p _ w v, ca => .mk c p ca w v

def Node.withWildcard : Node → Option Node → Node
  | .mk c p ca _ v, w => .mk c p ca w v

def Node.withValue : Node → Option (List Nat) → Node
  | .mk c p ca w _, v => .mk c p ca w v

/-- `current.value.get_or_insert(vec![]).push(index)`. -/
def Node.pushValue (n : Node) (index : Nat) : Node :=
  n.withValue (some ((n.value.getD []) ++ [index]))

/-- The middleware router (`struct MiddlewareRouter`). -/
structure MiddlewareRouter where
  root : Node

/-- `MiddlewareRouter::new`. -/
def MiddlewareRouter.new : MiddlewareRouter := ⟨Node.empty⟩

/-- Result of a successful path match (`struct Match` in middleware.rs).
`params` models the `HashMap<String, String>` of bound parameters. -/
structure MMatch where
  value : List Nat
  params : List (String × String)
deriving DecidableEq, Repr

/-- The segment-walking loop of `MiddlewareRouter::insert`: descend through the
tree following the parsed segments, then push `index` onto the reached node's
value list.  `ParamCatchAll` and `Wildcard` break out of the loop (consuming
the rest of the pattern), and a `Mixed` segment is an error. -/
def insertSegs (n : Node) (segs : List Segment) (index : Nat) :
    Except String Node :=
  match segs with
  | [] => .ok (n.pushValue index)
  | seg :: rest =>
    match seg with
    | .Static s =>
      let child := (assocGet n.children s).getD Node.empty
      match insertSegs child rest index with
      | .ok child' => .ok (n.withChildren (assocSet n.children s child'))
      | .error e => .error e
    | .Param p =>
      let (name, child) := n.param.getD (p, Node.empty)
      match insertSegs child rest index with
      | .ok child' => .ok (n.withParam (some (name, child')))
      | .error e => .error e
    | .ParamCatchAll p =>
      let (name, child) := n.catch_all.getD (p, Node.empty)
      .ok (n.withCatchAll (some (name, child.pushValue index)))
    | .Wildcard =>
      let child := n.wildcard.getD Node.empty
      .ok (n.withWildcard (some (child.pushValue index)))
    | .Mixed pre param suffix =>
      .error ("Mixed segments not yet supported: " ++ pre ++ "\x7b" ++ param
        ++ "\x7d" ++ suffix)

/-- `MiddlewareRouter::insert`. -/
def MiddlewareRouter.insert (r : MiddlewareRouter) (path : String)
    (index : Nat) : Except String MiddlewareRouter :=
  match parse_segments path with
  | .ok segs =>
    match insertSegs r.root segs index with
    | .ok root' => .ok ⟨root'⟩
    | .error e => .error e
  | .error e => .error e

/-- The matching loop of `MiddlewareRouter::at`.  `full` is the complete
segment list of the request path: on a catch-all hit the Rust code binds the
parameter to `segments.join("/")`, the join of the *whole* path, not of the
unconsumed remainder. -/
def atLoop (full : List String) (n : Node) (segs : List String)
    (params : List (String × String)) : Option MMatch :=
  match segs with
  | [] => n.value.map (fun v => ⟨v, params⟩)
  | seg :: rest =>
    match assocGet n.children seg with
    | some child => atLoop full child rest params
    | none =>
      match n.param with
      | some (name, paramNode) =>
        atLoop full paramNode rest (assocSet params name seg)
      | none =>
        match n.catch_all with
        | some (name, catchNode) =>
          catchNode.value.map
            (fun v => ⟨v, assocSet params name (joinSlash full)⟩)
        | none =>
          match n.wildcard with
          | some wildNode => wildNode.value.map (fun v => ⟨v, params⟩)
          | none => none

/-- `MiddlewareRouter::at`. -/
def MiddlewareRouter.at (r : MiddlewareRouter) (path : String) :
    Option MMatch :=
  atLoop (split_path path) r.root (split_path path) []

/-- `MiddlewareRouter::recurse`, restructured over the unconsumed segment
suffix (`segments[depth..]`); the wildcard branch's jump to
`depth = segments.len()` becomes a recursive call on `[]`.  The parameter map
is threaded in and out because the Rust code mutates it in place
(insert before each sub-traversal, remove after). -/
def recurseGo (n : Node) (remaining : List String)
    (params : List (String × String)) (ms : List MMatch) :
    List (String × String) × List MMatch :=
  match remaining with
  | [] =>
    match n.value with
    | some v => (params, ms ++ [MMatch.mk v params])
    | none => (params, ms)
  | seg :: rest =>
    -- Try static
    let (params, ms) :=
      match assocGet n.children seg with
      | some child => recurseGo child rest params ms
      | none => (params, ms)
    -- Try param
    let (params, ms) :=
      match n.param with
      | some (name, paramNode) =>
        let (params1, ms1) :=
          recurseGo paramNode rest (assocSet params name seg) ms
        (assocRemove params1 name, ms1)
      | none => (params, ms)
    -- Try wildcard
    let (params, ms) :=
      match n.wildcard with
      | some wildNode =>
        let ms :=
          match wildNode.value with
          | some v => ms ++ [MMatch.mk v params]
          | none => ms
        -- `Self::recurse(wild_node, segments, segments.len(), ..)` jumps to
        -- `depth == segments.len()` and so lands directly in the base case;
        -- that base case is inlined here (keeping the recursion structural),
        -- which reports the wildcard node's value a second time.
        let ms :=
          match wildNode.value with
          | some v => ms ++ [MMatch.mk v params]
          | none => ms
        (params, ms)
      | none => (params, ms)
    -- Try catch_all
    match n.catch_all with
    | some (name, catchNode) =>
      let remainingStr := joinSlash (seg :: rest)
      let params1 := assocSet params name remainingStr
      let ms :=
        match catchNode.value with
        | some v => ms ++ [MMatch.mk v params1]
        | none => ms
      (assocRemove params1 name, ms)
    | none => (params, ms)

/-- `MiddlewareRouter::get_all_matches`. -/
def MiddlewareRouter.get_all_matches (r : MiddlewareRouter) (path : String) :
    List MMatch :=
  (recurseGo r.root (split_path path) [] []).2

/-- The `at_mut`-then-`push` step used by `Router::route` and
`Router::use_with` in router.rs (`entry.value.push(layer_index)` on the
matched entry).  It follows exactly the traversal of `atLoop` and appends
`index` to the value of the node the traversal reaches; `none` where `at`
finds no match. -/
def atPush (n : Node) (segs : List String) (index : Nat) : Option Node :=
  match segs with
  | [] =>
    match n.value with
    | some v => some (n.withValue (some (v ++ [index])))
    | none => none
  | seg :: rest =>
    match assocGet n.children seg with
    | some child =>
      (atPush child rest index).map
        (fun child' => n.withChildren (assocSet n.children seg child'))
    | none =>
      match n.param with
      | some (name, paramNode) =>
        (atPush paramNode rest index).map
          (fun p' => n.withParam (some (name, p')))
      | none =>
        match n.catch_all with
        | some (name, catchNode) =>
          match catchNode.value with
          | some v =>
            some (n.withCatchAll
              (some (name, catchNode.withValue (some (v ++ [index])))))
          | none => none
        | none =>
          match n.wildcard with
          | some wildNode =>
            match wildNode.value with
            | some v =>
              some (n.withWildcard
                (some (wildNode.withValue (some (v ++ [index])))))
            | none => none
          | none => none

/-- Registration of one index under a pattern, as done by `Router::route` and
`Router::use_with`: push onto the existing matched entry when `at_mut`
succeeds, otherwise insert a fresh entry (`insert(path, smallvec![index])`).
`none` models the `.expect(...)` panic on a malformed pattern. -/
def MiddlewareRouter.register (r : MiddlewareRouter) (path : String)
    (index : Nat) : Option MiddlewareRouter :=
  match atPush r.root (split_path path) index with
  | some root' => some ⟨root'⟩
  | none => (r.insert path index).toOption

/-! ## The symbol interner (`src/router/interner.rs`) -/

/-- The interner (`struct Interner`).  Symbols are the `u32` payloads of
`Symbol(u32)`, modelled as `Nat`; `forward` is the `DashMap<&str, Symbol>`,
`reverse` the `Vec<&str>` of reverse lookups, `counter` the `AtomicU32`
(sequential semantics). -/
structure Interner where
  forward : List (String × Nat)
  reverse : List String
  counter : Nat
deriving DecidableEq, Repr

/-- `Interner::default()`. -/
def Interner.default : Interner := ⟨[], [], 0⟩

/-- `Interner::get`: lookup without insert. -/
def Interner.get (it : Interner) (s : String) : Option Nat :=
  assocGet it.forward s

/-- `Interner::resolve`. -/
def Interner.resolve (it : Interner) (sym : Nat) : Option String :=
  it.reverse[sym]?

/-- `Interner::get_or_intern`: return the existing symbol, or allocate the
next counter value, record the forward binding, and extend (or overwrite in)
the reverse table exactly as the Rust code does. -/
def Interner.get_or_intern (it : Interner) (s : String) : Interner × Nat :=
  match assocGet it.forward s with
  | some sym => (it, sym)
  | none =>
    let sym := it.counter
    let reverse :=
      if it.reverse.length ≤ sym then it.reverse ++ [s]
      else it.reverse.set sym s
    (⟨it.forward ++ [(s, sym)], reverse, it.counter + 1⟩, sym)

/-! ## The dispatcher data model (`src/router.rs`, `src/router/route.rs`,
`src/handler/request.rs`) -/

/-- A request-scoped response, at the interface the dispatcher consumes
(spec §6): a mutable status code plus the body written by `send`. -/
structure Response where
  status : Nat
  body : String
deriving DecidableEq, Repr

/-- `Response::status_code` (src/handler/response.rs): set the status.
404 and 405 are valid status codes, so the `Result` is always `Ok` on the
dispatcher's fallback paths and the `.unwrap()` never panics. -/
def Response.status_code (res : Response) (code : Nat) : Response :=
  { res with status := code }

/-- Modelled from the spec: the body-write operation `send` that router.rs
invokes on its 404/405 fallbacks (`res.status_code(..).unwrap().send(..)`).
The revision of `Response` under src/ lacks `send`; spec §6 specifies it as
the dispatcher-facing body-setting operation. -/
def Response.send (res : Response) (s : String) : Response :=
  { res with body := s }

/-- A request at the interface the dispatcher consumes: method, path, and the
extension slot for `RouteParams` (`none` until `set_params` runs).  The
params map carries interned symbols, as in `RouteParams(HashMap<Symbol,
Symbol>)` of src/handler/request.rs. -/
structure Request where
  method : String
  path : String
  params : Option (List (Nat × Nat))
deriving DecidableEq, Repr

/-- `RequestExtInternal::set_params` (src/handler/request.rs): store the raw
symbol map in the request's extensions, replacing any previous value. -/
def Request.set_params (req : Request) (ps : List (Nat × Nat)) : Request :=
  { req with params := some ps }

/-- An opaque handler body (spec §6): mutates the request/response pair and
reports whether it invoked its `next` continuation — the flag that
`Router::create_next` hands back to the dispatcher. -/
def HandlerFn : Type := Request → Response → Request × Response × Bool

/-- One entry of a route's handler stack (`Route.stack` in
src/router/route.rs): a layer holding the registered method and handler. -/
structure RouteHandler where
  method : Option String
  handler : HandlerFn

/-- `Route` (src/router/route.rs): path, ordered handler stack, and the set
of registered methods (a `HashSet<Method>`, modelled as a duplicate-free
list used only through membership). -/
structure Route where
  path : String
  stack : List RouteHandler
  methods : List String

/-- `Route::new`. -/
def Route.new (path : String) : Route := ⟨path, [], []⟩

/-- The generated per-method registration functions of src/router/route.rs
(`get`, `post`, …): insert the method into the `methods` set and push a
layer with that method and handler onto the route's stack. -/
def Route.addMethod (rt : Route) (method : String) (h : HandlerFn) : Route :=
  { rt with
      methods := if method ∈ rt.methods then rt.methods
                 else rt.methods ++ [method],
      stack := rt.stack ++ [⟨some method, h⟩] }

/-- A layer of the router stack (the `Layer` consumed by router.rs: a path, a
handler, and `route: Option<Route>` distinguishing route layers from
middleware layers). -/
structure Layer where
  path : String
  handler : HandlerFn
  route : Option Route

/-- `Router` (src/router.rs): the layer stack, the middleware matcher, and
the per-method route matchers. -/
structure Router where
  stack : List Layer
  middleware_matcher : MiddlewareRouter
  routes : List (String × MiddlewareRouter)

/-- `Router::default()`. -/
def Router.default : Router := ⟨[], MiddlewareRouter.new, []⟩

/-- `Router::route` (router.rs lines 43–71) combined with the subsequent
method registrations performed through the returned `&mut Route` handle:
compute the new layer's index, push it into the method's matcher (appending
to an existing matched entry, else inserting), and push a layer whose route
is `build (Route::new path)`.  `none` models the registration-time panic on a
malformed pattern. -/
def Router.route (r : Router) (path : String) (h : HandlerFn)
    (method : String) (build : Route → Route) : Option Router :=
  let layer_index := r.stack.length
  let mr := (assocGet r.routes method).getD MiddlewareRouter.new
  (mr.register path layer_index).map (fun mr' =>
    { r with
        stack := r.stack ++ [⟨path, h, some (build (Route.new path))⟩],
        routes := assocSet r.routes method mr' })

/-- `Router::use_with` (router.rs lines 74–97): push the middleware index
into the middleware matcher and append a middleware layer (no route). -/
def Router.use_with (r : Router) (path : String) (h : HandlerFn) :
    Option Router :=
  let layer_index := r.stack.length
  (r.middleware_matcher.register path layer_index).map (fun mm =>
    { r with
        stack := r.stack ++ [⟨path, h, none⟩],
        middleware_matcher := mm })

/-! ## `Router::handle` (router.rs lines 100–185) -/

/-- One record per handler invocation performed by the dispatcher: either a
middleware layer's handler, or the handler at position `pos` of a route
layer's stack. -/
inductive Event where
  | middleware (layerIdx : Nat)
  | routeHandler (layerIdx : Nat) (pos : Nat)
deriving DecidableEq, Repr

/-- The param-interning loop of `Router::handle` (lines 115–122): for each
route-match pair, intern the key and the value into the shared interner and
insert the symbol pair into the accumulated map. -/
def internParamsLoop (it : Interner) (ps : List (String × String))
    (acc : List (Nat × Nat)) : Interner × List (Nat × Nat) :=
  match ps with
  | [] => (it, acc)
  | kv :: rest =>
    let (it1, symK) := it.get_or_intern kv.1
    let (it2, symV) := it1.get_or_intern kv.2
    internParamsLoop it2 rest (assocSet acc symK symV)

/-- Interning of all route-match parameters, starting from the empty
`HashMap<Symbol, Symbol>` handed to `set_params`. -/
def internParams (it : Interner) (ps : List (String × String)) :
    Interner × List (Nat × Nat) :=
  internParamsLoop it ps []

/-- `Vec::dedup` on the matched index list: remove *consecutive* duplicates,
keeping the first of each run. -/
def dedupAdjacent : List Nat → List Nat
  | [] => []
  | [a] => [a]
  | a :: b :: rest =>
    if a = b then dedupAdjacent (b :: rest) else a :: dedupAdjacent (b :: rest)

/-- `sort_unstable` on the matched index list, modelled as insertion sort
(the Rust sort is unstable; on `Nat` keys the order of equal elements is
irrelevant). -/
def sortNat (l : List Nat) : List Nat := List.insertionSort (· ≤ ·) l

/-- The matching phase of `Router::handle` (lines 101–135): collect all
middleware matches, query the request method's route matcher, intern and
attach the route parameters (or attach the empty map when the method has no
matcher or no pattern matches), and produce the merged matched index list. -/
def Router.matchPhase (r : Router) (it : Interner) (req : Request) :
    Interner × Request × List Nat :=
  let mwMatched :=
    (r.middleware_matcher.get_all_matches req.path).flatMap (fun m => m.value)
  match assocGet r.routes req.method with
  | some routes =>
    match routes.at req.path with
    | some routeMatch =>
      let (it', params) := internParams it routeMatch.params
      (it', req.set_params params, mwMatched ++ routeMatch.value)
    | none => (it, req.set_params [], mwMatched)
  | none => (it, req.set_params [], mwMatched)

/-- Result of the dispatcher's execution loop: final request/response, the
handler-invocation trace, the `path_method_matched` flag, and whether some
handler stopped the chain (made the loop `return` early). -/
structure ExecOut where
  req : Request
  res : Response
  events : List Event
  pmm : Bool
  stopped : Bool
deriving Repr

/-- Result of running one route layer's handler stack. -/
structure StackOut where
  req : Request
  res : Response
  events : List Event
  allNext : Bool
deriving Repr

/-- The inner loop over `route.stack` (router.rs lines 172–179): run each
route-layer handler in order with a fresh `next` signal, returning early when
one does not call `next`. -/
def runRouteStack (stack : List RouteHandler) (layerIdx : Nat) (pos : Nat)
    (req : Request) (res : Response) (events : List Event) : StackOut :=
  match stack with
  | [] => ⟨req, res, events, true⟩
  | rh :: rest =>
    let (req', res', calledNext) := rh.handler req res
    let events' := events ++ [.routeHandler layerIdx pos]
    if calledNext then runRouteStack rest layerIdx (pos + 1) req' res' events'
    else ⟨req', res', events', false⟩

/-- The outer loop of `Router::handle` over the sorted matched indices
(router.rs lines 149–180).  A middleware layer (`route.is_none()`) runs its
handler and stops the whole dispatch when `next` was not called; a route
layer is skipped when its stack is empty or its method set misses the
request's method, and otherwise sets `path_method_matched` and runs its
stack.  An out-of-range index models the Rust panic on `self.stack[*i]` and
halts execution. -/
def execLayers (stack : List Layer) (method : String) (idxs : List Nat)
    (req : Request) (res : Response) (events : List Event) (pmm : Bool) :
    ExecOut :=
  match idxs with
  | [] => ⟨req, res, events, pmm, false⟩
  | i :: rest =>
    match stack[i]? with
    | none => ⟨req, res, events, pmm, true⟩
    | some layer =>
      match layer.route with
      | none =>
        let (req', res', calledNext) := layer.handler req res
        let events' := events ++ [.middleware i]
        if calledNext then execLayers stack method rest req' res' events' pmm
        else ⟨req', res', events', pmm, true⟩
      | some route =>
        if route.stack.isEmpty || !(route.methods.contains method) then
          execLayers stack method rest req res events pmm
        else
          let out := runRouteStack route.stack i 0 req res events
          if out.allNext then
            execLayers stack method rest out.req out.res out.events true
          else
            ⟨out.req, out.res, out.events, true, true⟩

/-- `Router::handle` (router.rs lines 100–185): the matching phase, the 404
fallback on an empty matched set, `dedup` then `sort_unstable`, the execution
loop, and the 405 fallback when no route layer for the request's method ran
and no handler stopped the chain.  Returns the final interner state, request,
response, and handler-invocation trace. -/
def Router.handle (r : Router) (it : Interner) (req : Request)
    (res : Response) : Interner × Request × Response × List Event :=
  let (it', req', matched) := r.matchPhase it req
  if matched = [] then
    (it', req', (res.status_code 404).send "Not Found", [])
  else
    let sorted := sortNat (dedupAdjacent matched)
    let out := execLayers r.stack req'.method sorted req' res [] false
    if out.stopped then
      (it', out.req, out.res, out.events)
    else if out.pmm then
      (it', out.req, out.res, out.events)
    else
      (it', out.req, (out.res.status_code 405).send "Method Not Allowed",
        out.events)

/-! ## Concrete fixtures used by the counterexamples and witnesses -/

/-- A handler body that mutates nothing and always invokes `next`. -/
def passHandler : HandlerFn := fun req res => (req, res, true)

/-- A fresh 200/empty response, as handed to the dispatcher. -/
def res200 : Response := ⟨200, ""⟩

/-- A router holding exactly one route, `POST /users`, and no middleware. -/
def postUsersRouter : Router :=
  (Router.default.route "/users" passHandler "POST"
    (fun rt => rt.addMethod "POST" passHandler)).getD Router.default

/-- A router with two middleware layers both registered under `*`. -/
def starTwiceRouter : Router :=
  (((Router.default.use_with "*" passHandler).getD
    Router.default).use_with "*" passHandler).getD Router.default

/-- A matcher holding the single catch-all pattern `/files/{*rest}`. -/
def filesCatchAllMatcher : MiddlewareRouter :=
  (MiddlewareRouter.new.insert "/files/\x7b*rest\x7d" 0).toOption.getD
    MiddlewareRouter.new

/-- A matcher holding the single static pattern `/users`. -/
def usersMatcher : MiddlewareRouter :=
  (MiddlewareRouter.new.insert "/users" 0).toOption.getD MiddlewareRouter.new

/-- A matcher holding the single static pattern `/Users` (capital U). -/
def capUsersMatcher : MiddlewareRouter :=
  (MiddlewareRouter.new.insert "/Users" 0).toOption.getD MiddlewareRouter.new

/-- A matcher holding `/a/{x}/{x}` — the same parameter name twice. -/
def dupParamMatcher : MiddlewareRouter :=
  (MiddlewareRouter.new.insert "/a/\x7bx\x7d/\x7bx\x7d" 0).toOption.getD
    MiddlewareRouter.new

/-! ## Claim theorems -/

/-- **C1 (counterexample).** The claim predicts 405 for `GET /users` on a
router holding only `POST /users` and no middleware.  The code keeps one
matcher per method and never consults other methods' matchers, so the merged
matched set is empty and the dispatcher answers 404 Not Found, not 405. -/
theorem C1_counterexample :
    (postUsersRouter.handle Interner.default ⟨"GET", "/users", none⟩
        res200).2.2.1 = ⟨404, "Not Found"⟩ ∧
    ((postUsersRouter.handle Interner.default ⟨"GET", "/users", none⟩
        res200).2.2.1.status = 405 → False) := by
  decide

/-- **C3 (code bug).** With two middleware both registered under `*`, a
request to `/x` makes `get_all_matches` report the wildcard entry `[0, 1]`
twice, the flattened match list is `[0, 1, 0, 1]`, and the dispatcher's
`dedup`-before-`sort_unstable` removes nothing — so the execution trace runs
layer 0 twice and layer 1 twice, contradicting both the code's own
"Deduplicate handler indices for execution" comment and the claim. -/
theorem C3_duplicate_execution :
    starTwiceRouter.middleware_matcher.get_all_matches "/x"
      = [⟨[0, 1], []⟩, ⟨[0, 1], []⟩] ∧
    sortNat (dedupAdjacent [0, 1, 0, 1]) = [0, 0, 1, 1] ∧
    (starTwiceRouter.handle Interner.default ⟨"GET", "/x", none⟩
        res200).2.2.2
      = [.middleware 0, .middleware 0, .middleware 1, .middleware 1] := by
  decide

/-- **C4 (code bug).** For pattern `/files/{*rest}` against path
`/files/a/b/c`, the single-match query `at` binds `rest` to the join of the
*entire* path, `"files/a/b/c"` (`params.insert(name, segments.join("/"))`),
while the all-matches traversal `recurse` binds the claimed remainder
`"a/b/c"` (`segments[depth..].join("/")`). -/
theorem C4_at_binds_whole_path :
    filesCatchAllMatcher.at "/files/a/b/c"
      = some ⟨[0], [("rest", "files/a/b/c")]⟩ ∧
    filesCatchAllMatcher.get_all_matches "/files/a/b/c"
      = [⟨[0], [("rest", "a/b/c")]⟩] := by
  decide

/-- **C6 (counterexample).** Inserting the pattern `/files/{*rest}/more` — a
catch-all followed by a further segment — succeeds instead of returning a
registration error. -/
theorem C6_counterexample :
    (MiddlewareRouter.new.insert "/files/\x7b*rest\x7d/more" 0).isOk = true := by
  decide

/-- **C6 (amended).** The insert loop `break`s at a catch-all or wildcard
segment, so any further segments are silently ignored: inserting
`ParamCatchAll name :: rest` (resp. `Wildcard :: rest`) is the same operation
as inserting the catch-all (resp. wildcard) alone, and the concrete pattern
`/files/{*rest}/more` registers an entry that behaves exactly like
`/files/{*rest}`. -/
theorem C6_amended :
    (∀ (n : Node) (name : String) (rest : List Segment) (index : Nat),
      insertSegs n (Segment.ParamCatchAll name :: rest) index
        = insertSegs n [Segment.ParamCatchAll name] index) ∧
    (∀ (n : Node) (rest : List Segment) (index : Nat),
      insertSegs n (Segment.Wildcard :: rest) index
        = insertSegs n [Segment.Wildcard] index) ∧
    ((MiddlewareRouter.new.insert "/files/\x7b*rest\x7d/more" 0).toOption.map
        (fun m => m.at "/files/x")
      = some (some ⟨[0], [("rest", "files/x")]⟩)) := by
  refine ⟨fun n name rest index => rfl, fun n rest index => rfl, by decide⟩

/-- **C7 (counterexample).** With the static pattern `/users` registered, the
path `/users/` (trailing slash appended) produces exactly the same match as
`/users`: `split_path` trims slashes and drops empty segments, so the two
paths are treated as equal, contradicting the claim's "not treated as
equal". -/
theorem C7_counterexample :
    usersMatcher.at "/users/" = usersMatcher.at "/users" ∧
    (usersMatcher.at "/users/").isSome = true := by
  decide

/-- **C8 (counterexample).** The pattern `/a/{x}/{x}` binds the parameter
name `x` twice, yet insertion succeeds — duplicate parameter names within
one pattern are not a registration error. -/
theorem C8_counterexample :
    (MiddlewareRouter.new.insert "/a/\x7bx\x7d/\x7bx\x7d" 0).isOk = true := by
  decide

/-! ## Helper lemmas on path splitting and matching -/

/-- Appending a trailing slash never changes `split_path`: the trailing
slash is trimmed away before splitting. -/
theorem split_path_append_slash (path : String) :
    split_path (path ++ "/") = split_path path := by
  have h : (path ++ "/").data = path.data ++ ['/'] := String.data_append ..
  unfold split_path trimSlashes dropTrailingSlashes
  rw [h]
  simp [List.dropWhile_cons]

/-- `at` only depends on the path through `split_path`. -/
theorem at_congr (r : MiddlewareRouter) (p q : String)
    (h : split_path p = split_path q) : r.at p = r.at q := by
  unfold MiddlewareRouter.at
  rw [h]

/-- `get_all_matches` only depends on the path through `split_path`. -/
theorem get_all_matches_congr (r : MiddlewareRouter) (p q : String)
    (h : split_path p = split_path q) :
    r.get_all_matches p = r.get_all_matches q := by
  unfold MiddlewareRouter.get_all_matches
  rw [h]

/-- **C7 (amended).** Static-segment comparison is case-sensitive (the
`/Users` matcher rejects `/users` while the `/users` matcher accepts it),
but trailing slashes *are* normalized away: `split_path` trims them, and
both matcher queries depend on the path only through `split_path`, so `p`
and `p ++ "/"` always match identically. -/
theorem C7_amended :
    (∀ (path : String), split_path (path ++ "/") = split_path path) ∧
    (∀ (r : MiddlewareRouter) (p q : String), split_path p = split_path q →
      r.at p = r.at q ∧ r.get_all_matches p = r.get_all_matches q) ∧
    (∀ (r : MiddlewareRouter) (p : String),
      r.at (p ++ "/") = r.at p) ∧
    capUsersMatcher.at "/users" = none ∧
    usersMatcher.at "/users" = some ⟨[0], []⟩ := by
  refine ⟨split_path_append_slash,
    fun r p q h => ⟨at_congr r p q h, get_all_matches_congr r p q h⟩,
    fun r p => at_congr r (p ++ "/") p (split_path_append_slash p),
    by decide, by decide⟩

/-- **C7 (witness).** The amended claim applied at the concrete matcher for
`/users` and the concrete paths `/users/` and `/users`. -/
theorem C7_witness :
    split_path "/users" = split_path "/users" ∧
    usersMatcher.at "/users/" = usersMatcher.at "/users" := by
  refine ⟨rfl, ?_⟩
  have h := (C7_amended.2.1 usersMatcher "/users/" "/users" (by decide)).1
  exact h

/-! ## Helper lemmas on pattern parsing and insertion -/

/-- `parseParts` fails whenever some part is the empty braced parameter
`\x7b\x7d`. -/
theorem parseParts_error_of_mem_empty_braces (l : List String)
    (h : "\x7b\x7d" ∈ l) : (parseParts l).isOk = false := by
  induction l with
  | nil => cases h
  | cons part rest ih =>
    rcases List.mem_cons.mp h with h1 | h2
    · subst h1
      have hp : parse_part "\x7b\x7d"
          = .error ("Empty parameter in segment: " ++ "\x7b\x7d") := by rfl
      simp [parseParts, hp, Except.isOk, Except.toBool]
    · cases hp : parse_part part with
      | ok seg =>
        cases hr : parseParts rest with
        | ok segs =>
          have hok := ih h2
          rw [hr] at hok
          simp [Except.isOk, Except.toBool] at hok
        | error e => simp [parseParts, hp, hr, Except.isOk, Except.toBool]
      | error e => simp [parseParts, hp, Except.isOk, Except.toBool]

/-- A segment is a `Mixed` prefix/suffix parameter. -/
def Segment.isMixed : Segment → Bool
  | .Mixed _ _ _ => true
  | _ => false

/-- `insertSegs` succeeds on any segment list free of `Mixed` segments. -/
theorem insertSegs_ok (segs : List Segment) :
    ∀ (n : Node) (index : Nat), (∀ s ∈ segs, s.isMixed = false) →
      (insertSegs n segs index).isOk = true := by
  induction segs with
  | nil => intro n index _; rfl
  | cons seg rest ih =>
    intro n index h
    have hrest : ∀ s ∈ rest, s.isMixed = false :=
      fun s hs => h s (List.mem_cons_of_mem _ hs)
    cases seg with
    | Static s =>
      have hrec := ih ((assocGet n.children s).getD Node.empty) index hrest
      cases hc : insertSegs ((assocGet n.children s).getD Node.empty) rest index with
      | ok c => simp [insertSegs, hc, Except.isOk, Except.toBool]
      | error e => rw [hc] at hrec; simp [Except.isOk, Except.toBool] at hrec
    | Param p =>
      have hrec := ih (n.param.getD (p, Node.empty)).2 index hrest
      cases hc : insertSegs (n.param.getD (p, Node.empty)).2 rest index with
      | ok c => simp [insertSegs, hc, Except.isOk, Except.toBool]
      | error e => rw [hc] at hrec; simp [Except.isOk, Except.toBool] at hrec
    | ParamCatchAll p => rfl
    | Wildcard => rfl
    | Mixed pre param suffix =>
      have hmix := h _ (List.mem_cons_self _ _)
      simp [Segment.isMixed] at hmix

/-- **C8 (amended).** Insertion rejects a pattern only for an empty braced
parameter `\x7b\x7d` or an (unsupported) mixed prefix/suffix segment: any
pattern whose parts parse to static/param/catch-all/wildcard segments
inserts successfully.  In particular duplicate parameter names are accepted
(at match time the later binding overwrites the earlier one), and the
catch-all `\x7b*\x7d` with an *empty* name is also accepted. -/
theorem C8_amended :
    (∀ (path : String), "\x7b\x7d" ∈ split_path path →
      ∀ (r : MiddlewareRouter) (index : Nat),
        (r.insert path index).isOk = false) ∧
    (∀ (segs : List Segment) (n : Node) (index : Nat),
      (∀ s ∈ segs, s.isMixed = false) →
      (insertSegs n segs index).isOk = true) ∧
    parse_part "\x7b*\x7d" = .ok (.ParamCatchAll "") ∧
    dupParamMatcher.at "/a/p/q" = some ⟨[0], [("x", "q")]⟩ := by
  refine ⟨?_, fun segs n index h => insertSegs_ok segs n index h,
    by rfl, by decide⟩
  intro path hmem r index
  have h := parseParts_error_of_mem_empty_braces (split_path path) hmem
  unfold MiddlewareRouter.insert parse_segments
  cases hp : parseParts (split_path path) with
  | ok segs => rw [hp] at h; simp [Except.isOk, Except.toBool] at h
  | error e => rfl

/-- **C8 (witness).** The amended claim applied at the concrete pattern
`/a/\x7b\x7d` (insertion fails) and at a concrete `Mixed`-free segment list
(insertion succeeds). -/
theorem C8_witness :
    ("\x7b\x7d" ∈ split_path "/a/\x7b\x7d" ∧
      (MiddlewareRouter.new.insert "/a/\x7b\x7d" 7).isOk = false) ∧
    ((∀ s ∈ [Segment.Param "x", Segment.Param "x"], s.isMixed = false) ∧
      (insertSegs Node.empty [Segment.Param "x", Segment.Param "x"] 3).isOk
        = true) := by
  refine ⟨⟨by decide, C8_amended.1 "/a/\x7b\x7d" (by decide)
      MiddlewareRouter.new 7⟩,
    ⟨by decide, C8_amended.2.1 [Segment.Param "x", Segment.Param "x"]
      Node.empty 3 (by decide)⟩⟩

/-! ## Dispatcher control flow: 404/405 policy and stop semantics -/

/-- **C1 (amended).** The dispatcher does not track whether any route
pattern matches the path independently of the method: it answers 404
whenever the merged matched set (middleware matches plus same-method route
matches) is empty, and 405 whenever that set is non-empty but no route layer
for the request's method ran and no handler stopped the chain; when a route
layer for the method did run, the response is returned as the handlers left
it.  A POST-only route therefore yields 404, not 405, for a GET of the same
path. -/
theorem C1_amended (r : Router) (it : Interner) (req : Request)
    (res : Response) :
    let mp := r.matchPhase it req
    let out := execLayers r.stack mp.2.1.method
      (sortNat (dedupAdjacent mp.2.2)) mp.2.1 res [] false
    (mp.2.2 = [] →
      (r.handle it req res).2.2.1 = (res.status_code 404).send "Not Found") ∧
    (mp.2.2 ≠ [] → out.stopped = false → out.pmm = false →
      (r.handle it req res).2.2.1
        = (out.res.status_code 405).send "Method Not Allowed") ∧
    (mp.2.2 ≠ [] → out.stopped = false → out.pmm = true →
      (r.handle it req res).2.2.1 = out.res) := by
  intro mp out
  have hmp : r.matchPhase it req = (mp.1, (mp.2.1, mp.2.2)) := rfl
  have hfold : execLayers r.stack mp.2.1.method
      (sortNat (dedupAdjacent mp.2.2)) mp.2.1 res [] false = out := rfl
  refine ⟨fun h => ?_, fun h h1 h2 => ?_, fun h h1 h2 => ?_⟩
  · simp [Router.handle, hmp, h]
  · simp only [Router.handle, hmp]
    rw [if_neg h, hfold]
    simp [h1, h2]
  · simp only [Router.handle, hmp]
    rw [if_neg h, hfold]
    simp [h1, h2]

/-- **C1 (amended, witness).** The amended 404/405 policy applied to the
concrete POST-only router and a GET request: the merged matched set is
empty, so the dispatcher answers 404. -/
theorem C1_amended_witness :
    (postUsersRouter.matchPhase Interner.default
        ⟨"GET", "/users", none⟩).2.2 = [] ∧
    (postUsersRouter.handle Interner.default ⟨"GET", "/users", none⟩
        res200).2.2.1 = (res200.status_code 404).send "Not Found" := by
  refine ⟨by decide, ?_⟩
  exact (C1_amended postUsersRouter Interner.default ⟨"GET", "/users", none⟩
    res200).1 (by decide)

/-- **C2.** Stop semantics of the dispatcher, in four parts.  (1) If a
middleware layer's handler does not invoke `next`, the execution loop
returns at once: the trace ends with that invocation, no later index is
visited, and the response is exactly the handler's mutation.  (2) Likewise
inside a route layer's handler stack: a handler that does not invoke `next`
ends the stack run immediately with `allNext = false`.  (3) A route layer
whose stack run came back `allNext = false` makes the outer loop return at
once, without visiting the remaining indices.  (4) When the execution loop
reports `stopped`, `Router::handle` returns the response exactly as mutated
— neither the 404 nor the 405 fallback is applied. -/
theorem C2_stop_halts :
    (∀ (stack : List Layer) (method : String) (i : Nat) (rest : List Nat)
        (req : Request) (res : Response) (events : List Event) (pmm : Bool)
        (layer : Layer),
      stack[i]? = some layer → layer.route = none →
      (layer.handler req res).2.2 = false →
      execLayers stack method (i :: rest) req res events pmm
        = ⟨(layer.handler req res).1, (layer.handler req res).2.1,
            events ++ [.middleware i], pmm, true⟩) ∧
    (∀ (rh : RouteHandler) (rest : List RouteHandler) (i pos : Nat)
        (req : Request) (res : Response) (events : List Event),
      (rh.handler req res).2.2 = false →
      runRouteStack (rh :: rest) i pos req res events
        = ⟨(rh.handler req res).1, (rh.handler req res).2.1,
            events ++ [.routeHandler i pos], false⟩) ∧
    (∀ (stack : List Layer) (method : String) (i : Nat) (rest : List Nat)
        (req : Request) (res : Response) (events : List Event) (pmm : Bool)
        (layer : Layer) (route : Route),
      stack[i]? = some layer → layer.route = some route →
      (route.stack.isEmpty || !(route.methods.contains method)) = false →
      (runRouteStack route.stack i 0 req res events).allNext = false →
      execLayers stack method (i :: rest) req res events pmm
        = ⟨(runRouteStack route.stack i 0 req res events).req,
            (runRouteStack route.stack i 0 req res events).res,
            (runRouteStack route.stack i 0 req res events).events,
            true, true⟩) ∧
    (∀ (r : Router) (it : Interner) (req : Request) (res : Response),
      let mp := r.matchPhase it req
      let out := execLayers r.stack mp.2.1.method
        (sortNat (dedupAdjacent mp.2.2)) mp.2.1 res [] false
      mp.2.2 ≠ [] → out.stopped = true →
      r.handle it req res = (mp.1, out.req, out.res, out.events)) := by
  refine ⟨?_, ?_, ?_, ?_⟩
  · intro stack method i rest req res events pmm layer hget hroute hstop
    rcases hh : layer.handler req res with ⟨req', res', b⟩
    rw [hh] at hstop
    simp at hstop
    subst hstop
    simp [execLayers, hget, hroute, hh]
  · intro rh rest i pos req res events hstop
    rcases hh : rh.handler req res with ⟨req', res', b⟩
    rw [hh] at hstop
    simp at hstop
    subst hstop
    simp [runRouteStack, hh]
  · intro stack method i rest req res events pmm layer route hget hroute
      hrun hallnext
    simp [execLayers, hget, hroute, hrun, hallnext]
    simp at hrun
    intro hcase
    rcases hcase with hc | hc
    · exact absurd hc hrun.1
    · exact absurd hrun.2 hc
  · intro r it req res mp out h hstopped
    have hmp : r.matchPhase it req = (mp.1, (mp.2.1, mp.2.2)) := rfl
    have hfold : execLayers r.stack mp.2.1.method
        (sortNat (dedupAdjacent mp.2.2)) mp.2.1 res [] false = out := rfl
    simp only [Router.handle, hmp]
    rw [if_neg h, hfold]
    simp [hstopped]

/-- A handler body that mutates the response status and does not invoke
`next`. -/
def stopHandler : HandlerFn := fun req res => (req, res.status_code 299, false)

/-- **C2 (witness).** The four parts of the stop-semantics theorem applied
to concrete one-layer data: a stopping middleware layer, a stopping
route-stack entry, a route layer whose stack stops, and a router whose sole
middleware stops so that `handle` skips both fallbacks. -/
theorem C2_stop_halts_witness :
    (execLayers [⟨"*", stopHandler, none⟩] "GET" [0]
        ⟨"GET", "/x", some []⟩ res200 [] false
      = ⟨⟨"GET", "/x", some []⟩, res200.status_code 299, [.middleware 0],
          false, true⟩) ∧
    (runRouteStack [⟨some "GET", stopHandler⟩] 0 0
        ⟨"GET", "/x", some []⟩ res200 []
      = ⟨⟨"GET", "/x", some []⟩, res200.status_code 299,
          [.routeHandler 0 0], false⟩) ∧
    (execLayers [⟨"/x", passHandler, some ⟨"/x", [⟨some "GET", stopHandler⟩],
          ["GET"]⟩⟩] "GET" [0] ⟨"GET", "/x", some []⟩ res200 [] false
      = ⟨⟨"GET", "/x", some []⟩, res200.status_code 299, [.routeHandler 0 0],
          true, true⟩) ∧
    (((Router.default.use_with "*" stopHandler).getD Router.default).handle
        Interner.default ⟨"GET", "/x", none⟩ res200
      = (Interner.default, ⟨"GET", "/x", some []⟩, res200.status_code 299,
          [.middleware 0])) := by
  refine ⟨?_, ?_, ?_, ?_⟩
  · exact C2_stop_halts.1 [⟨"*", stopHandler, none⟩] "GET" 0 []
      ⟨"GET", "/x", some []⟩ res200 [] false ⟨"*", stopHandler, none⟩
      rfl rfl rfl
  · exact C2_stop_halts.2.1 ⟨some "GET", stopHandler⟩ [] 0 0
      ⟨"GET", "/x", some []⟩ res200 [] rfl
  · exact C2_stop_halts.2.2.1 [⟨"/x", passHandler, some ⟨"/x",
      [⟨some "GET", stopHandler⟩], ["GET"]⟩⟩] "GET" 0 []
      ⟨"GET", "/x", some []⟩ res200 [] false _ _ rfl rfl (by decide) rfl
  · have h := C2_stop_halts.2.2.2
      ((Router.default.use_with "*" stopHandler).getD Router.default)
      Interner.default ⟨"GET", "/x", none⟩ res200 (by decide) (by rfl)
    exact h

/-! ## Interner invariants and laws (C9) -/

/-- Looking up an appended association list when the left part misses the
key. -/
theorem assocGet_append_of_none {α β : Type} [DecidableEq α]
    (l m : List (α × β)) (k : α) (h : assocGet l k = none) :
    assocGet (l ++ m) k = assocGet m k := by
  induction l with
  | nil => rfl
  | cons p rest ih =>
    rcases p with ⟨a, b⟩
    by_cases hk : a = k
    · simp [assocGet, hk] at h
    · simp [assocGet, hk] at h ⊢
      exact ih h

/-- A successful association lookup is a membership. -/
theorem assocGet_mem {α β : Type} [DecidableEq α]
    (l : List (α × β)) (k : α) (v : β) (h : assocGet l k = some v) :
    (k, v) ∈ l := by
  induction l with
  | nil => cases h
  | cons p rest ih =>
    rcases p with ⟨a, b⟩
    by_cases hk : a = k
    · subst hk
      simp [assocGet] at h
      subst h
      exact List.mem_cons_self _ _
    · simp [assocGet, hk] at h
      exact List.mem_cons_of_mem _ (ih h)

/-- Well-formedness of an interner state: the counter equals the reverse
table's length, and every forward binding resolves back to its string. -/
def Interner.Inv (it : Interner) : Prop :=
  it.counter = it.reverse.length ∧
  ∀ p ∈ it.forward, it.reverse[p.2]? = some p.1

/-- Interning a list of strings into the default interner — the only
mutation the code ever performs on the process-wide `INTERNER`. -/
def internAll (ss : List String) : Interner :=
  ss.foldl (fun it s => (it.get_or_intern s).1) Interner.default

/-- States the running system can actually be in. -/
def Interner.Reachable (it : Interner) : Prop := ∃ ss, internAll ss = it

/-- `get_or_intern` preserves the invariant, resolves its own result, and
never invalidates an existing resolution. -/
theorem get_or_intern_spec (it : Interner) (s : String) (h : it.Inv) :
    (it.get_or_intern s).1.Inv ∧
    (it.get_or_intern s).1.resolve (it.get_or_intern s).2 = some s ∧
    (∀ k v, it.resolve k = some v → (it.get_or_intern s).1.resolve k = some v) := by
  unfold Interner.get_or_intern
  cases hf : assocGet it.forward s with
  | some sym =>
    refine ⟨h, ?_, fun k v hk => hk⟩
    exact h.2 (s, sym) (assocGet_mem _ _ _ hf)
  | none =>
    have hcount : it.reverse.length ≤ it.counter := le_of_eq h.1.symm
    simp only [hcount, if_pos]
    constructor
    · constructor
      · simp [h.1]
      · intro p hp
        rcases List.mem_append.mp hp with hp | hp
        · have hres := h.2 p hp
          have hlt : p.2 < it.reverse.length :=
            List.getElem?_eq_some.mp hres |>.1
          rw [List.getElem?_append_left hlt]
          exact hres
        · have hp' : p = (s, it.counter) := List.mem_singleton.mp hp
          subst hp'
          simp only [Interner.resolve, h.1]
          exact List.getElem?_concat_length _ _
    · constructor
      · show (it.reverse ++ [s])[it.counter]? = some s
        rw [h.1]
        exact List.getElem?_concat_length _ _
      · intro k v hk
        show (it.reverse ++ [s])[k]? = some v
        have hlt : k < it.reverse.length := (List.getElem?_eq_some.mp hk).1
        rw [List.getElem?_append_left hlt]
        exact hk

/-- Every reachable interner state is well-formed. -/
theorem reachable_inv (it : Interner) (h : it.Reachable) : it.Inv := by
  obtain ⟨ss, hss⟩ := h
  subst hss
  suffices hgen : ∀ (ss : List String) (st : Interner), st.Inv →
      (ss.foldl (fun it s => (it.get_or_intern s).1) st).Inv by
    exact hgen ss Interner.default ⟨rfl, by intro p hp; cases hp⟩
  intro ss
  induction ss with
  | nil => intro st hst; exact hst
  | cons a rest ih =>
    intro st hst
    exact ih _ (get_or_intern_spec st a hst).1

/-- Interning strings other than `s` never creates a binding for `s`. -/
theorem foldl_intern_get_none (ss : List String) :
    ∀ (st : Interner) (s : String), st.get s = none → s ∉ ss →
      ((ss.foldl (fun it x => (it.get_or_intern x).1) st).get s = none) := by
  induction ss with
  | nil => intro st s h _; exact h
  | cons a rest ih =>
    intro st s h hmem
    have hne : a ≠ s := fun heq => hmem (heq ▸ List.mem_cons_self a rest)
    refine ih _ s ?_ (fun hr => hmem (List.mem_cons_of_mem _ hr))
    show ((st.get_or_intern a).1).get s = none
    unfold Interner.get_or_intern
    cases hf : assocGet st.forward a with
    | some sym => exact h
    | none =>
      show assocGet (st.forward ++ [(a, st.counter)]) s = none
      rw [assocGet_append_of_none _ _ _ h]
      simp [assocGet, hne]

/-- **C9.** Round-trip and deduplication laws of the interner, on every
reachable state: `resolve (get_or_intern s)` returns `some s`; a second
`get_or_intern s` returns the same symbol *and* leaves the state untouched
(no duplicate symbol); after interning, `get s` finds exactly that symbol;
and for a state built without ever interning `s`, `get s` is `none` — `get`
itself never inserts (in this pure model it returns no new state, and only
`get_or_intern` occurs in state construction). -/
theorem C9_interner_laws (it : Interner) (h : it.Reachable) (s : String) :
    (it.get_or_intern s).1.resolve (it.get_or_intern s).2 = some s ∧
    ((it.get_or_intern s).1.get_or_intern s
      = ((it.get_or_intern s).1, (it.get_or_intern s).2)) ∧
    (it.get_or_intern s).1.get s = some (it.get_or_intern s).2 ∧
    (∀ ss : List String, s ∉ ss → (internAll ss).get s = none) := by
  have hinv := reachable_inv it h
  have hget : (it.get_or_intern s).1.get s = some (it.get_or_intern s).2 := by
    unfold Interner.get_or_intern Interner.get
    cases hf : assocGet it.forward s with
    | some sym => exact hf
    | none =>
      have hcount : it.reverse.length ≤ it.counter := le_of_eq hinv.1.symm
      simp only [hcount, if_pos]
      show assocGet (it.forward ++ [(s, it.counter)]) s = some it.counter
      rw [assocGet_append_of_none _ _ _ hf]
      simp [assocGet]
  refine ⟨(get_or_intern_spec it s hinv).2.1, ?_, hget, ?_⟩
  · have hg : ∀ (it1 : Interner) (k : Nat), it1.get s = some k →
        it1.get_or_intern s = (it1, k) := by
      intro it1 k hk
      unfold Interner.get_or_intern
      rw [show assocGet it1.forward s = some k from hk]
    exact hg _ _ hget
  · intro ss hss
    exact foldl_intern_get_none ss Interner.default s rfl hss

/-- **C9 (witness).** The laws applied at the concrete reachable state
`internAll ["a"]` and the fresh string `"b"`. -/
theorem C9_interner_laws_witness :
    ((internAll ["a"]).get_or_intern "b").1.resolve
        ((internAll ["a"]).get_or_intern "b").2 = some "b" ∧
    (internAll ["a"]).get "b" = none := by
  have h := C9_interner_laws (internAll ["a"]) ⟨["a"], rfl⟩ "b"
  exact ⟨h.1, h.2.2.2 ["a"] (by decide)⟩

/-! ## Route parameters attached to the request (C10) -/

/-- Duplicate-freeness of the keys of an association list. -/
def KeysUnique {α β : Type} (l : List (α × β)) : Prop :=
  l.Pairwise (fun p q => p.1 ≠ q.1)

/-- Every member of `assocSet l k v` either comes from `l` or has key `k`. -/
theorem assocSet_mem_keys {α β : Type} [DecidableEq α]
    (l : List (α × β)) (k : α) (v : β) (q : α × β)
    (h : q ∈ assocSet l k v) : q.1 ∈ l.map Prod.fst ∨ q.1 = k := by
  induction l with
  | nil =>
    have hq : q = (k, v) := List.mem_singleton.mp h
    exact Or.inr (by rw [hq])
  | cons p rest ih =>
    rcases p with ⟨a, b⟩
    by_cases hk : a = k
    · subst hk
      rw [assocSet, if_pos rfl] at h
      rcases List.mem_cons.mp h with hq | hq
      · exact Or.inl (by rw [hq]; exact List.mem_cons_self _ _)
      · exact Or.inl (List.mem_cons_of_mem _
          (List.mem_map_of_mem Prod.fst hq))
    · rw [assocSet, if_neg hk] at h
      rcases List.mem_cons.mp h with hq | hq
      · exact Or.inl (by rw [hq]; exact List.mem_cons_self _ _)
      · rcases ih hq with hq' | hq'
        · exact Or.inl (List.mem_cons_of_mem _ hq')
        · exact Or.inr hq'

/-- `assocSet` preserves duplicate-free keys. -/
theorem assocSet_keysUnique {α β : Type} [DecidableEq α]
    (l : List (α × β)) (k : α) (v : β) (h : KeysUnique l) :
    KeysUnique (assocSet l k v) := by
  induction l with
  | nil => simp [assocSet, KeysUnique]
  | cons p rest ih =>
    rcases p with ⟨a, b⟩
    rcases List.pairwise_cons.mp h with ⟨hhead, htail⟩
    by_cases hk : a = k
    · subst hk
      simp only [assocSet, if_pos rfl]
      exact List.pairwise_cons.mpr ⟨hhead, htail⟩
    · simp only [assocSet, if_neg hk]
      refine List.pairwise_cons.mpr ⟨?_, ih htail⟩
      intro q hq
      rcases assocSet_mem_keys rest k v q hq with hmem | hmem
      · rcases List.mem_map.mp hmem with ⟨p', hp', hfst⟩
        exact hfst ▸ hhead p' hp'
      · rw [hmem]; exact hk

/-- Inserting a fresh key appends the binding at the end. -/
theorem assocSet_of_not_mem_keys {α β : Type} [DecidableEq α]
    (l : List (α × β)) (k : α) (v : β) (h : k ∉ l.map Prod.fst) :
    assocSet l k v = l ++ [(k, v)] := by
  induction l with
  | nil => rfl
  | cons p rest ih =>
    rcases p with ⟨a, b⟩
    simp only [List.map_cons, List.mem_cons] at h
    push_neg at h
    have hak : ¬ a = k := fun he => h.1 he.symm
    rw [assocSet, if_neg hak, ih h.2]
    rfl

/-- If the input parameter map has duplicate-free keys, so does the map of
any match produced by `atLoop`. -/
theorem atLoop_keysUnique (segs : List String) :
    ∀ (full : List String) (n : Node) (params : List (String × String))
      (m : MMatch), KeysUnique params →
      atLoop full n segs params = some m → KeysUnique m.params := by
  induction segs with
  | nil =>
    intro full n params m hu hm
    unfold atLoop at hm
    cases hv : n.value with
    | none => rw [hv] at hm; cases hm
    | some v =>
      rw [hv] at hm
      have hm' := Option.some.inj hm
      rw [← hm']
      exact hu
  | cons seg rest ih =>
    intro full n params m hu hm
    unfold atLoop at hm
    cases hc : assocGet n.children seg with
    | some child =>
      rw [hc] at hm
      exact ih full child params m hu hm
    | none =>
      rw [hc] at hm
      cases hp : n.param with
      | some pnode =>
        rcases pnode with ⟨name, paramNode⟩
        rw [hp] at hm
        exact ih full paramNode _ m (assocSet_keysUnique _ _ _ hu) hm
      | none =>
        rw [hp] at hm
        cases hca : n.catch_all with
        | some cnode =>
          rcases cnode with ⟨name, catchNode⟩
          rw [hca] at hm
          dsimp only at hm
          cases hv : catchNode.value with
          | none => rw [hv] at hm; cases hm
          | some v =>
            rw [hv] at hm
            have hm' := Option.some.inj hm
            rw [← hm']
            exact assocSet_keysUnique _ _ _ hu
        | none =>
          rw [hca] at hm
          cases hw : n.wildcard with
          | some wnode =>
            rw [hw] at hm
            dsimp only at hm
            cases hv : wnode.value with
            | none => rw [hv] at hm; cases hm
            | some v =>
              rw [hv] at hm
              have hm' := Option.some.inj hm
              rw [← hm']
              exact hu
          | none => rw [hw] at hm; cases hm

/-- The parameter map of any `at` match has duplicate-free keys. -/
theorem at_keysUnique (r : MiddlewareRouter) (path : String) (m : MMatch)
    (h : r.at path = some m) : KeysUnique m.params :=
  atLoop_keysUnique (split_path path) (split_path path) r.root [] m
    (List.Pairwise.nil) h

/-- The interning loop preserves the interner invariant and existing
resolutions, only appends fresh pairs to the accumulator, and its output
resolves pointwise back to the input parameter list. -/
theorem internParamsLoop_spec (ps : List (String × String)) :
    ∀ (it : Interner) (acc : List (Nat × Nat)), it.Inv → KeysUnique ps →
    (∀ q ∈ acc, ∃ s, it.resolve q.1 = some s ∧ s ∉ ps.map Prod.fst) →
    (internParamsLoop it ps acc).1.Inv ∧
    (∀ k v, it.resolve k = some v →
      (internParamsLoop it ps acc).1.resolve k = some v) ∧
    ∃ sps, (internParamsLoop it ps acc).2 = acc ++ sps ∧
      List.Forall₂ (fun p q =>
        (internParamsLoop it ps acc).1.resolve q.1 = some p.1 ∧
        (internParamsLoop it ps acc).1.resolve q.2 = some p.2) ps sps := by
  induction ps with
  | nil =>
    intro it acc hinv _ _
    exact ⟨hinv, fun k v hk => hk, [], by simp [internParamsLoop], .nil⟩
  | cons kv rest ih =>
    intro it acc hinv hu hacc
    rcases h1 : it.get_or_intern kv.1 with ⟨it1, sk⟩
    rcases h2 : it1.get_or_intern kv.2 with ⟨it2, sv⟩
    have s1 := get_or_intern_spec it kv.1 hinv
    rw [h1] at s1
    have s2 := get_or_intern_spec it1 kv.2 s1.1
    rw [h2] at s2
    have hsk2 : it2.resolve sk = some kv.1 := s2.2.2 _ _ s1.2.1
    have hmono : ∀ k v, it.resolve k = some v → it2.resolve k = some v :=
      fun k v hk => s2.2.2 _ _ (s1.2.2 _ _ hk)
    rcases List.pairwise_cons.mp hu with ⟨hhead, htail⟩
    have hkv1 : kv.1 ∉ rest.map Prod.fst := by
      intro hmem
      rcases List.mem_map.mp hmem with ⟨p', hp', hfst⟩
      exact (hhead p' hp') hfst.symm
    -- the freshly interned key symbol is not already a key of `acc`
    have hfresh : sk ∉ acc.map Prod.fst := by
      intro hsk
      rcases List.mem_map.mp hsk with ⟨q, hq, hq1⟩
      rcases hacc q hq with ⟨s, hs, hsnot⟩
      have hq2 : it2.resolve q.1 = some s := hmono _ _ hs
      rw [hq1, hsk2] at hq2
      have hskv : kv.1 = s := by injection hq2
      apply hsnot
      rw [List.map_cons, ← hskv]
      exact List.mem_cons_self _ _
    have hset : assocSet acc sk sv = acc ++ [(sk, sv)] :=
      assocSet_of_not_mem_keys acc sk sv hfresh
    have hacc' : ∀ q ∈ acc ++ [(sk, sv)],
        ∃ s, it2.resolve q.1 = some s ∧ s ∉ rest.map Prod.fst := by
      intro q hq
      rcases List.mem_append.mp hq with hq | hq
      · rcases hacc q hq with ⟨s, hs, hsnot⟩
        exact ⟨s, hmono _ _ hs,
          fun hr => hsnot (List.map_cons Prod.fst kv rest ▸
            List.mem_cons_of_mem _ hr)⟩
      · have hq' : q = (sk, sv) := List.mem_singleton.mp hq
        subst hq'
        exact ⟨kv.1, hsk2, hkv1⟩
    obtain ⟨hinv', hmono', sps', hsps', hfa⟩ :=
      ih it2 (acc ++ [(sk, sv)]) s2.1 htail hacc'
    have hstep : internParamsLoop it (kv :: rest) acc
        = internParamsLoop it2 rest (acc ++ [(sk, sv)]) := by
      simp only [internParamsLoop, h1, h2, hset]
    rw [hstep]
    refine ⟨hinv', fun k v hk => hmono' _ _ (hmono _ _ hk),
      (sk, sv) :: sps', ?_, ?_⟩
    · rw [hsps', List.append_assoc]
      rfl
    · exact List.Forall₂.cons
        ⟨hmono' _ _ hsk2, hmono' _ _ s2.2.1⟩ hfa

/-- A router holding the single route `GET /users/{id}` and no middleware. -/
def paramRouteRouter : Router :=
  (Router.default.route "/users/\x7bid\x7d" passHandler "GET"
    (fun rt => rt.addMethod "GET" passHandler)).getD Router.default

/-- The route matcher that `paramRouteRouter` keeps for GET. -/
def paramRouteMatcher : MiddlewareRouter :=
  (MiddlewareRouter.new.insert "/users/\x7bid\x7d" 0).toOption.getD
    MiddlewareRouter.new

/-- **C10.** On every control path of the matching phase the request gets a
`RouteParams` map attached before any handler executes (`Router::handle`
passes the `matchPhase` request straight into the execution loop): the map
is `some []` when the method has no route matcher or no route pattern
matches, and on a route match it is exactly the interned image of that
match's parameters — middleware matches contribute only layer indices
(`flat_map(|m| m.value)`), so middleware-captured parameters never appear.
On a well-formed interner, resolving the stored symbol pairs gives back
precisely the route match's parameter list. -/
theorem C10_route_params (r : Router) (it : Interner) (req : Request) :
    ((r.matchPhase it req).2.1.params.isSome = true) ∧
    (assocGet r.routes req.method = none →
      (r.matchPhase it req).2.1.params = some []) ∧
    (∀ routes, assocGet r.routes req.method = some routes →
      routes.at req.path = none →
      (r.matchPhase it req).2.1.params = some []) ∧
    (∀ routes rm, assocGet r.routes req.method = some routes →
      routes.at req.path = some rm →
      (r.matchPhase it req).2.1.params = some (internParams it rm.params).2 ∧
      (it.Inv → List.Forall₂ (fun p q =>
          (internParams it rm.params).1.resolve q.1 = some p.1 ∧
          (internParams it rm.params).1.resolve q.2 = some p.2)
        rm.params (internParams it rm.params).2)) := by
  refine ⟨?_, ?_, ?_, ?_⟩
  · unfold Router.matchPhase
    cases h1 : assocGet r.routes req.method with
    | none => simp [Request.set_params]
    | some routes =>
      cases h2 : routes.at req.path with
      | none => simp [h2, Request.set_params]
      | some rm =>
        rcases hip : internParams it rm.params with ⟨it', ps⟩
        simp [h2, hip, Request.set_params]
  · intro h
    simp [Router.matchPhase, h, Request.set_params]
  · intro routes h1 h2
    simp [Router.matchPhase, h1, h2, Request.set_params]
  · intro routes rm h1 h2
    rcases hip : internParams it rm.params with ⟨it', ps⟩
    constructor
    · simp [Router.matchPhase, h1, h2, hip, Request.set_params]
    · intro hinv
      have hu : KeysUnique rm.params := at_keysUnique routes req.path rm h2
      obtain ⟨_, _, sps, hsps, hfa⟩ :=
        internParamsLoop_spec rm.params it [] hinv hu
          (fun q hq => absurd hq (List.not_mem_nil q))
      have hip' : internParamsLoop it rm.params [] = (it', ps) := hip
      rw [hip'] at hsps hfa
      simp only [List.nil_append] at hsps
      rw [hsps]
      exact hfa

/-- **C10 (witness).** The parameter-attachment theorem applied to the
concrete router with route `GET /users/{id}` and the request
`GET /users/42`: the attached map is the interned image of
`[("id", "42")]`, and it resolves back to it. -/
theorem C10_route_params_witness :
    (paramRouteRouter.matchPhase Interner.default
        ⟨"GET", "/users/42", none⟩).2.1.params
      = some (internParams Interner.default [("id", "42")]).2 ∧
    List.Forall₂ (fun p q =>
        (internParams Interner.default [("id", "42")]).1.resolve q.1
          = some p.1 ∧
        (internParams Interner.default [("id", "42")]).1.resolve q.2
          = some p.2)
      [("id", "42")] (internParams Interner.default [("id", "42")]).2 := by
  have h := (C10_route_params paramRouteRouter Interner.default
    ⟨"GET", "/users/42", none⟩).2.2.2 paramRouteMatcher ⟨[0], [("id", "42")]⟩
    (by rfl) (by rfl)
  exact ⟨h.1, h.2 ⟨rfl, fun p hp => absurd hp (List.not_mem_nil p)⟩⟩

/-! ## Registration and execution of a twice-registered route (C5) -/

@[simp] theorem Node.children_withChildren (n : Node) (c) :
    (n.withChildren c).children = c := by cases n; rfl
@[simp] theorem Node.param_withChildren (n : Node) (c) :
    (n.withChildren c).param = n.param := by cases n; rfl
@[simp] theorem Node.catch_all_withChildren (n : Node) (c) :
    (n.withChildren c).catch_all = n.catch_all := by cases n; rfl
@[simp] theorem Node.wildcard_withChildren (n : Node) (c) :
    (n.withChildren c).wildcard = n.wildcard := by cases n; rfl
@[simp] theorem Node.value_withChildren (n : Node) (c) :
    (n.withChildren c).value = n.value := by cases n; rfl

@[simp] theorem Node.children_withParam (n : Node) (p) :
    (n.withParam p).children = n.children := by cases n; rfl
@[simp] theorem Node.param_withParam (n : Node) (p) :
    (n.withParam p).param = p := by cases n; rfl
@[simp] theorem Node.catch_all_withParam (n : Node) (p) :
    (n.withParam p).catch_all = n.catch_all := by cases n; rfl
@[simp] theorem Node.wildcard_withParam (n : Node) (p) :
    (n.withParam p).wildcard = n.wildcard := by cases n; rfl
@[simp] theorem Node.value_withParam (n : Node) (p) :
    (n.withParam p).value = n.value := by cases n; rfl

@[simp] theorem Node.children_withCatchAll (n : Node) (x) :
    (n.withCatchAll x).children = n.children := by cases n; rfl
@[simp] theorem Node.param_withCatchAll (n : Node) (x) :
    (n.withCatchAll x).param = n.param := by cases n; rfl
@[simp] theorem Node.catch_all_withCatchAll (n : Node) (x) :
    (n.withCatchAll x).catch_all = x := by cases n; rfl
@[simp] theorem Node.wildcard_withCatchAll (n : Node) (x) :
    (n.withCatchAll x).wildcard = n.wildcard := by cases n; rfl
@[simp] theorem Node.value_withCatchAll (n : Node) (x) :
    (n.withCatchAll x).value = n.value := by cases n; rfl

@[simp] theorem Node.children_withWildcard (n : Node) (x) :
    (n.withWildcard x).children = n.children := by cases n; rfl
@[simp] theorem Node.param_withWildcard (n : Node) (x) :
    (n.withWildcard x).param = n.param := by cases n; rfl
@[simp] theorem Node.catch_all_withWildcard (n : Node) (x) :
    (n.withWildcard x).catch_all = n.catch_all := by cases n; rfl
@[simp] theorem Node.wildcard_withWildcard (n : Node) (x) :
    (n.withWildcard x).wildcard = x := by cases n; rfl
@[simp] theorem Node.value_withWildcard (n : Node) (x) :
    (n.withWildcard x).value = n.value := by cases n; rfl

@[simp] theorem Node.children_withValue (n : Node) (x) :
    (n.withValue x).children = n.children := by cases n; rfl
@[simp] theorem Node.param_withValue (n : Node) (x) :
    (n.withValue x).param = n.param := by cases n; rfl
@[simp] theorem Node.catch_all_withValue (n : Node) (x) :
    (n.withValue x).catch_all = n.catch_all := by cases n; rfl
@[simp] theorem Node.wildcard_withValue (n : Node) (x) :
    (n.withValue x).wildcard = n.wildcard := by cases n; rfl
@[simp] theorem Node.value_withValue (n : Node) (x) :
    (n.withValue x).value = x := by cases n; rfl

/-- Updating a key makes it resolvable to the new value. -/
theorem assocGet_assocSet_self {α β : Type} [DecidableEq α]
    (l : List (α × β)) (k : α) (v : β) :
    assocGet (assocSet l k v) k = some v := by
  induction l with
  | nil => simp [assocSet, assocGet]
  | cons p rest ih =>
    rcases p with ⟨a, b⟩
    by_cases hk : a = k
    · subst hk
      simp [assocSet, assocGet]
    · simp [assocSet, assocGet, hk, ih]

/-- `atPush` succeeds exactly when the `at` traversal finds a match; both
follow the same branch decisions. -/
theorem atPush_isSome (segs : List String) :
    ∀ (n : Node) (idx : Nat) (full : List String)
      (params : List (String × String)),
    (atPush n segs idx).isSome = (atLoop full n segs params).isSome := by
  induction segs with
  | nil =>
    intro n idx full params
    unfold atPush atLoop
    cases hv : n.value <;> simp [hv]
  | cons seg rest ih =>
    intro n idx full params
    unfold atPush atLoop
    cases hc : assocGet n.children seg with
    | some child => simpa [Option.isSome_map] using ih child idx full params
    | none =>
      cases hp : n.param with
      | some pnode =>
        rcases pnode with ⟨name, paramNode⟩
        simpa [Option.isSome_map] using
          ih paramNode idx full (assocSet params name seg)
      | none =>
        cases hca : n.catch_all with
        | some cnode =>
          rcases cnode with ⟨name, catchNode⟩
          cases hv : catchNode.value <;> simp [hv]
        | none =>
          cases hw : n.wildcard with
          | some wildNode => cases hv : wildNode.value <;> simp [hv]
          | none => simp

/-- After `atPush`, the `at` traversal returns the old match with `idx`
appended to its value list, parameters unchanged. -/
theorem atPush_at (segs : List String) :
    ∀ (n n' : Node) (idx : Nat), atPush n segs idx = some n' →
    ∀ (full : List String) (params : List (String × String)),
    atLoop full n' segs params
      = (atLoop full n segs params).map
          (fun m => ⟨m.value ++ [idx], m.params⟩) := by
  induction segs with
  | nil =>
    intro n n' idx hpush full params
    unfold atPush at hpush
    cases hv : n.value with
    | none => rw [hv] at hpush; cases hpush
    | some v =>
      rw [hv] at hpush
      have hn' := Option.some.inj hpush
      subst hn'
      unfold atLoop
      simp [hv]
  | cons seg rest ih =>
    intro n n' idx hpush full params
    unfold atPush at hpush
    cases hc : assocGet n.children seg with
    | some child =>
      rw [hc] at hpush
      dsimp only at hpush
      cases hrec : atPush child rest idx with
      | none => rw [hrec] at hpush; cases hpush
      | some child' =>
        rw [hrec] at hpush
        have hn' := Option.some.inj hpush
        subst hn'
        unfold atLoop
        simp only [Node.children_withChildren, assocGet_assocSet_self, hc]
        exact ih child child' idx hrec full params
    | none =>
      rw [hc] at hpush
      dsimp only at hpush
      cases hp : n.param with
      | some pnode =>
        rcases pnode with ⟨name, paramNode⟩
        rw [hp] at hpush
        dsimp only at hpush
        cases hrec : atPush paramNode rest idx with
        | none => rw [hrec] at hpush; cases hpush
        | some p' =>
          rw [hrec] at hpush
          have hn' := Option.some.inj hpush
          subst hn'
          unfold atLoop
          simp only [Node.children_withParam, hc, hp, Node.param_withParam]
          exact ih paramNode p' idx hrec full (assocSet params name seg)
      | none =>
        rw [hp] at hpush
        dsimp only at hpush
        cases hca : n.catch_all with
        | some cnode =>
          rcases cnode with ⟨name, catchNode⟩
          rw [hca] at hpush
          dsimp only at hpush
          cases hv : catchNode.value with
          | none => rw [hv] at hpush; cases hpush
          | some v =>
            rw [hv] at hpush
            have hn' := Option.some.inj hpush
            subst hn'
            unfold atLoop
            simp [hc, hp, hca, hv]
        | none =>
          rw [hca] at hpush
          dsimp only at hpush
          cases hw : n.wildcard with
          | some wildNode =>
            rw [hw] at hpush
            dsimp only at hpush
            cases hv : wildNode.value with
            | none => rw [hv] at hpush; cases hpush
            | some v =>
              rw [hv] at hpush
              have hn' := Option.some.inj hpush
              subst hn'
              unfold atLoop
              simp [hc, hp, hca, hw, hv]
          | none => rw [hw] at hpush; cases hpush

/-- The value list found by following only static child edges, empty when
the chain is incomplete. -/
def staticTargetVal : Node → List String → List Nat
  | n, [] => n.value.getD []
  | n, seg :: rest =>
    match assocGet n.children seg with
    | some child => staticTargetVal child rest
    | none => []

/-- The empty node stores nothing along any static chain. -/
theorem staticTargetVal_empty (names : List String) :
    staticTargetVal Node.empty names = [] := by
  cases names <;> rfl

/-- One step of the static chain, defaulting to the empty node. -/
theorem staticTargetVal_cons (n : Node) (seg : String) (rest : List String) :
    staticTargetVal n (seg :: rest)
      = staticTargetVal ((assocGet n.children seg).getD Node.empty) rest := by
  cases hc : assocGet n.children seg with
  | some child =>
    show (match assocGet n.children seg with
      | some child => staticTargetVal child rest
      | none => []) = _
    rw [hc]
    rfl
  | none =>
    show (match assocGet n.children seg with
      | some child => staticTargetVal child rest
      | none => []) = staticTargetVal Node.empty rest
    rw [hc, staticTargetVal_empty]

/-- Inserting a static-segment pattern always succeeds, and afterwards the
`at` traversal follows exactly the inserted static chain, finding the old
chain value extended with the new index and binding no parameters. -/
theorem insertSegs_static_at (names : List String) :
    ∀ (n : Node) (idx : Nat),
    ∃ n', insertSegs n (names.map Segment.Static) idx = .ok n' ∧
      ∀ (full : List String) (params : List (String × String)),
        atLoop full n' names params
          = some ⟨staticTargetVal n names ++ [idx], params⟩ := by
  induction names with
  | nil =>
    intro n idx
    refine ⟨n.pushValue idx, rfl, ?_⟩
    intro full params
    unfold atLoop Node.pushValue staticTargetVal
    simp
  | cons seg rest ih =>
    intro n idx
    obtain ⟨child', hins, hat⟩ := ih ((assocGet n.children seg).getD Node.empty) idx
    refine ⟨n.withChildren (assocSet n.children seg child'), ?_, ?_⟩
    · show insertSegs n (Segment.Static seg :: rest.map Segment.Static) idx = _
      unfold insertSegs
      dsimp only
      rw [hins]
    · intro full params
      unfold atLoop
      simp only [Node.children_withChildren, assocGet_assocSet_self]
      rw [hat full params, staticTargetVal_cons]

/-- When the `at` traversal finds nothing, the static chain holds no value. -/
theorem atLoop_none_staticTargetVal (names : List String) :
    ∀ (n : Node) (full : List String) (params : List (String × String)),
    atLoop full n names params = none → staticTargetVal n names = [] := by
  induction names with
  | nil =>
    intro n full params h
    unfold atLoop at h
    unfold staticTargetVal
    cases hv : n.value with
    | none => simp
    | some v => rw [hv] at h; cases h
  | cons seg rest ih =>
    intro n full params h
    unfold atLoop at h
    unfold staticTargetVal
    cases hc : assocGet n.children seg with
    | some child =>
      rw [hc] at h
      exact ih child full params h
    | none => rfl

/-- A path part with no wildcard star and no braces: parsed as a literal
static segment. -/
def PlainPart (part : String) : Prop :=
  ¬ part = "*" ∧
  ¬ (strStartsWith part "\x7b\x7b" ∧ strEndsWith part "\x7d\x7d") ∧
  ¬ (part.data.contains '{' ∧ part.data.contains '}')

theorem parse_part_plain (part : String) (h : PlainPart part) :
    parse_part part = .ok (.Static part) := by
  unfold parse_part
  rw [if_neg h.1, if_neg h.2.1, if_neg h.2.2]

theorem parseParts_plain (parts : List String)
    (h : ∀ part ∈ parts, PlainPart part) :
    parseParts parts = .ok (parts.map Segment.Static) := by
  induction parts with
  | nil => rfl
  | cons part rest ih =>
    unfold parseParts
    rw [parse_part_plain part (h part (List.mem_cons_self _ _)),
      ih (fun p hp => h p (List.mem_cons_of_mem _ hp))]
    rfl

/-- Registration of an index under a plain static pattern always succeeds,
and afterwards `at` on that pattern returns the previous entry (empty when
there was none) with the new index appended. -/
theorem register_spec (mr : MiddlewareRouter) (p : String) (idx : Nat)
    (hplain : ∀ part ∈ split_path p, PlainPart part) :
    ∃ mr', mr.register p idx = some mr' ∧
      mr'.at p = some ⟨((mr.at p).map MMatch.value).getD [] ++ [idx],
        ((mr.at p).map MMatch.params).getD []⟩ := by
  cases hat : mr.at p with
  | some m =>
    have hsome : (atPush mr.root (split_path p) idx).isSome = true := by
      rw [atPush_isSome (split_path p) mr.root idx (split_path p) []]
      show (mr.at p).isSome = true
      rw [hat]
      rfl
    obtain ⟨root', hroot'⟩ := Option.isSome_iff_exists.mp hsome
    refine ⟨⟨root'⟩, ?_, ?_⟩
    · unfold MiddlewareRouter.register
      rw [hroot']
    · show atLoop (split_path p) root' (split_path p) [] = _
      rw [atPush_at (split_path p) mr.root root' idx hroot' (split_path p) []]
      show (mr.at p).map _ = _
      rw [hat]
      rfl
  | none =>
    have hnone : atPush mr.root (split_path p) idx = none := by
      have hsome := atPush_isSome (split_path p) mr.root idx (split_path p) []
      rw [show atLoop (split_path p) mr.root (split_path p) [] = none from hat]
        at hsome
      cases hax : atPush mr.root (split_path p) idx with
      | none => rfl
      | some x => rw [hax] at hsome; cases hsome
    obtain ⟨n', hins, hatn⟩ :=
      insertSegs_static_at (split_path p) mr.root idx
    refine ⟨⟨n'⟩, ?_, ?_⟩
    · unfold MiddlewareRouter.register
      rw [hnone]
      dsimp only
      unfold MiddlewareRouter.insert parse_segments
      rw [parseParts_plain (split_path p) hplain]
      dsimp only
      rw [hins]
      rfl
    · show atLoop (split_path p) n' (split_path p) [] = _
      rw [hatn (split_path p) []]
      rw [atLoop_none_staticTargetVal (split_path p) mr.root (split_path p) [] hat]
      rfl

/-- Sorting preserves membership. -/
theorem sortNat_mem (l : List Nat) (a : Nat) : a ∈ sortNat l ↔ a ∈ l :=
  (List.perm_insertionSort (· ≤ ·) l).mem_iff

/-- The sorted output is sorted. -/
theorem sortNat_sorted (l : List Nat) : (sortNat l).Sorted (· ≤ ·) :=
  List.sorted_insertionSort (· ≤ ·) l

/-- Adjacent dedup preserves membership. -/
theorem dedupAdjacent_mem (l : List Nat) (a : Nat) :
    a ∈ dedupAdjacent l ↔ a ∈ l := by
  induction l with
  | nil => rfl
  | cons x rest ih =>
    cases rest with
    | nil => rfl
    | cons y rest2 =>
      unfold dedupAdjacent
      by_cases hxy : x = y
      · subst hxy
        rw [if_pos rfl, ih]
        constructor
        · intro h; exact List.mem_cons_of_mem _ h
        · intro h
          rcases List.mem_cons.mp h with h | h
          · exact h ▸ List.mem_cons_self _ _
          · exact h
      · rw [if_neg hxy]
        constructor
        · intro h
          rcases List.mem_cons.mp h with h | h
          · exact h ▸ List.mem_cons_self _ _
          · exact List.mem_cons_of_mem _ ((ih).mp h)
        · intro h
          rcases List.mem_cons.mp h with h | h
          · exact h ▸ List.mem_cons_self _ _
          · exact List.mem_cons_of_mem _ ((ih).mpr h)

/-- In a `≤`-sorted list containing `a` and `b` with `a < b`, the pair
`[a, b]` occurs as a sublist. -/
theorem sorted_pair_sublist (l : List Nat) (a b : Nat)
    (hs : l.Sorted (· ≤ ·)) (ha : a ∈ l) (hb : b ∈ l) (hab : a < b) :
    [a, b].Sublist l := by
  induction l with
  | nil => cases ha
  | cons x rest ih =>
    rcases List.sorted_cons.mp hs with ⟨hx, hrest⟩
    rcases List.mem_cons.mp ha with hax | hax
    · subst hax
      have hbrest : b ∈ rest := by
        rcases List.mem_cons.mp hb with hbx | hbx
        · exact absurd hbx.symm (Nat.ne_of_lt hab)
        · exact hbx
      exact List.Sublist.cons₂ a (List.singleton_sublist.mpr hbrest)
    · have hbrest : b ∈ rest := by
        rcases List.mem_cons.mp hb with hbx | hbx
        · subst hbx
          exact absurd (hx a hax) (Nat.not_le_of_lt hab)
        · exact hbx
      exact List.Sublist.cons x (ih hrest hax hbrest)

/-- `flatMap` is monotone with respect to the sublist order. -/
theorem sublist_flatMap {α β : Type} (f : α → List β) :
    ∀ {l t : List α}, l.Sublist t → (l.flatMap f).Sublist (t.flatMap f) := by
  intro l t h
  induction h with
  | slnil => exact List.Sublist.refl _
  | cons a h ih => exact ih.trans (List.sublist_append_right _ _)
  | cons₂ a h ih => exact List.Sublist.append_left ih _

/-- A handler that invokes `next` on every input. -/
def AlwaysNext (h : HandlerFn) : Prop :=
  ∀ req res, (h req res).2.2 = true

/-- Every handler reachable through a layer invokes `next`. -/
def LayerNext (l : Layer) : Prop :=
  AlwaysNext l.handler ∧
  ∀ rt, l.route = some rt → ∀ rh ∈ rt.stack, AlwaysNext rh.handler

/-- The trace block one layer contributes when no handler stops: nothing for
a skipped or missing layer, the middleware event, or one event per
route-stack position. -/
def layerEvents (stack : List Layer) (method : String) (i : Nat) :
    List Event :=
  match stack[i]? with
  | none => []
  | some layer =>
    match layer.route with
    | none => [.middleware i]
    | some route =>
      if route.stack.isEmpty || !(route.methods.contains method) then []
      else (List.range route.stack.length).map (fun pos => .routeHandler i pos)

/-- When every handler of a route stack invokes `next`, the whole stack runs,
appending one event per position. -/
theorem runRouteStack_all (stack : List RouteHandler) :
    ∀ (i pos : Nat) (req : Request) (res : Response) (events : List Event),
    (∀ rh ∈ stack, AlwaysNext rh.handler) →
    ∃ req' res', runRouteStack stack i pos req res events
      = ⟨req', res', events ++ (List.range stack.length).map
          (fun k => .routeHandler i (pos + k)), true⟩ := by
  induction stack with
  | nil =>
    intro i pos req res events _
    exact ⟨req, res, by simp [runRouteStack]⟩
  | cons rh rest ih =>
    intro i pos req res events hnext
    rcases hh : rh.handler req res with ⟨req1, res1, b⟩
    have hb : b = true := by
      have := hnext rh (List.mem_cons_self _ _) req res
      rw [hh] at this
      exact this
    subst hb
    obtain ⟨req', res', heq⟩ := ih i (pos + 1) req1 res1
      (events ++ [.routeHandler i pos])
      (fun x hx => hnext x (List.mem_cons_of_mem _ hx))
    refine ⟨req', res', ?_⟩
    have hstep : runRouteStack (rh :: rest) i pos req res events
        = runRouteStack rest i (pos + 1) req1 res1
            (events ++ [.routeHandler i pos]) := by
      rw [runRouteStack, hh]
      simp
    have hlist : events ++ [Event.routeHandler i pos]
          ++ (List.range rest.length).map
            (fun k => Event.routeHandler i (pos + 1 + k))
        = events ++ (List.range (rest.length + 1)).map
            (fun k => Event.routeHandler i (pos + k)) := by
      rw [List.append_assoc]
      congr 1
      rw [List.range_succ_eq_map, List.map_cons, List.map_map, Nat.add_zero,
        List.singleton_append]
      congr 1
      apply List.map_congr_left
      intro k _
      simp only [Function.comp_apply]
      congr 1
      omega
    rw [hstep, heq, hlist]
    rfl

/-- When every matched index points at a layer whose handlers all invoke
`next`, the execution loop visits every index in order and the trace is the
concatenation of the per-layer blocks. -/
theorem execLayers_all (idxs : List Nat) :
    ∀ (stack : List Layer) (method : String) (req : Request)
      (res : Response) (events : List Event) (pmm : Bool),
    (∀ i ∈ idxs, ∃ l, stack[i]? = some l ∧ LayerNext l) →
    ∃ req' res' pmm', execLayers stack method idxs req res events pmm
      = ⟨req', res', events ++ idxs.flatMap (layerEvents stack method),
          pmm', false⟩ := by
  induction idxs with
  | nil =>
    intro stack method req res events pmm _
    exact ⟨req, res, pmm, by simp [execLayers]⟩
  | cons i rest ih =>
    intro stack method req res events pmm hvalid
    obtain ⟨layer, hget, hlnext⟩ := hvalid i (List.mem_cons_self _ _)
    have hrest : ∀ j ∈ rest, ∃ l, stack[j]? = some l ∧ LayerNext l :=
      fun j hj => hvalid j (List.mem_cons_of_mem _ hj)
    rcases layer with ⟨lpath, lhandler, lroute⟩
    cases lroute with
    | none =>
      rcases hh : lhandler req res with ⟨req1, res1, b⟩
      have hb : b = true := by
        have hn := hlnext.1 req res
        rw [show Layer.handler ⟨lpath, lhandler, none⟩ = lhandler from rfl]
          at hn
        rw [hh] at hn
        exact hn
      subst hb
      obtain ⟨req', res', pmm', heq⟩ :=
        ih stack method req1 res1 (events ++ [.middleware i]) pmm hrest
      have hstep : execLayers stack method (i :: rest) req res events pmm
          = execLayers stack method rest req1 res1
              (events ++ [.middleware i]) pmm := by
        rw [execLayers, hget]
        dsimp only
        rw [hh]
        rfl
      have hev : layerEvents stack method i = [.middleware i] := by
        rw [layerEvents, hget]
      refine ⟨req', res', pmm', ?_⟩
      rw [hstep, heq, List.flatMap_cons, hev, List.append_assoc]
    | some route =>
      cases hcond : (route.stack.isEmpty || !(route.methods.contains method)) with
      | true =>
        obtain ⟨req', res', pmm', heq⟩ :=
          ih stack method req res events pmm hrest
        have hstep : execLayers stack method (i :: rest) req res events pmm
            = execLayers stack method rest req res events pmm := by
          rw [execLayers, hget]
          dsimp only
          rw [hcond]
          rw [if_pos rfl]
        have hev : layerEvents stack method i = [] := by
          rw [layerEvents, hget]
          dsimp only
          rw [hcond]
          rw [if_pos rfl]
        refine ⟨req', res', pmm', ?_⟩
        rw [hstep, heq, List.flatMap_cons, hev]
        rfl
      | false =>
        have hstacknext : ∀ rh ∈ route.stack, AlwaysNext rh.handler :=
          fun rh hrh => hlnext.2 route rfl rh hrh
        obtain ⟨req1, res1, hrun⟩ := runRouteStack_all route.stack i 0
          req res events hstacknext
        obtain ⟨req', res', pmm', heq⟩ :=
          ih stack method req1 res1
            (events ++ (List.range route.stack.length).map
              (fun k => .routeHandler i (0 + k))) true hrest
        have hstep : execLayers stack method (i :: rest) req res events pmm
            = execLayers stack method rest req1 res1
                (events ++ (List.range route.stack.length).map
                  (fun k => .routeHandler i (0 + k))) true := by
          rw [execLayers, hget]
          dsimp only
          rw [hcond]
          rw [if_neg (by simp), hrun]
          rfl
        have hev : layerEvents stack method i
            = (List.range route.stack.length).map
                (fun pos => Event.routeHandler i pos) := by
          rw [layerEvents, hget]
          dsimp only
          rw [hcond]
          rw [if_neg (by simp)]
        have hmap : (List.range route.stack.length).map
              (fun k => Event.routeHandler i (0 + k))
            = (List.range route.stack.length).map
                (fun pos => Event.routeHandler i pos) := by
          apply List.map_congr_left
          intro k _
          rw [Nat.zero_add]
        refine ⟨req', res', pmm', ?_⟩
        rw [hstep, heq, List.flatMap_cons, hev, hmap, List.append_assoc]

/-- **C5.** Registering two handlers under the same literal (plain static)
pattern and the same method: both registrations succeed, the second one
appends its layer index to the *existing* matcher entry for the pattern
(the entry's index list ends in the two new consecutive indices — no
duplicate entry is created), and a request matching that pattern with that
method executes both handlers in registration order (their trace events
occur in order in the dispatch trace).  The hypotheses ask that all
involved handlers invoke `next` and that the pre-existing matcher entries
point into the layer stack, which holds for every router built through
`route`/`use_with`. -/
theorem C5_two_handlers_one_pattern (r : Router) (p q m : String)
    (h1 h2 : HandlerFn) (it : Interner) (res : Response)
    (hplain : ∀ part ∈ split_path p, PlainPart part)
    (hq : split_path q = split_path p)
    (hn1 : AlwaysNext h1) (hn2 : AlwaysNext h2)
    (hstack : ∀ l ∈ r.stack, LayerNext l)
    (hmw : ∀ i ∈ (r.middleware_matcher.get_all_matches q).flatMap
      MMatch.value, i < r.stack.length)
    (hold : ∀ i ∈ ((((assocGet r.routes m).getD MiddlewareRouter.new).at
      p).map MMatch.value).getD [], i < r.stack.length) :
    ∃ r1 r2,
      r.route p h1 m (fun rt => rt.addMethod m h1) = some r1 ∧
      r1.route p h2 m (fun rt => rt.addMethod m h2) = some r2 ∧
      (∃ mr2, assocGet r2.routes m = some mr2 ∧
        mr2.at p = some ⟨((((assocGet r.routes m).getD
            MiddlewareRouter.new).at p).map MMatch.value).getD []
            ++ [r.stack.length, r.stack.length + 1],
          ((((assocGet r.routes m).getD MiddlewareRouter.new).at p).map
            MMatch.params).getD []⟩) ∧
      List.Sublist
        [Event.routeHandler r.stack.length 0,
         Event.routeHandler (r.stack.length + 1) 0]
        (r2.handle it ⟨m, q, none⟩ res).2.2.2 := by
  obtain ⟨mr1, hreg1, hat1⟩ :=
    register_spec ((assocGet r.routes m).getD MiddlewareRouter.new) p
      r.stack.length hplain
  set n := r.stack.length with hn
  set v0 := ((((assocGet r.routes m).getD MiddlewareRouter.new).at p).map
    MMatch.value).getD [] with hv0
  set ps0 := ((((assocGet r.routes m).getD MiddlewareRouter.new).at p).map
    MMatch.params).getD [] with hps0
  set L1 : Layer := ⟨p, h1, some ((Route.new p).addMethod m h1)⟩ with hL1
  set L2 : Layer := ⟨p, h2, some ((Route.new p).addMethod m h2)⟩ with hL2
  set r1 : Router :=
    ({ stack := r.stack ++ [L1], middleware_matcher := r.middleware_matcher,
       routes := assocSet r.routes m mr1 } : Router) with hr1def
  have hr1 : r.route p h1 m (fun rt => rt.addMethod m h1) = some r1 := by
    unfold Router.route
    dsimp only
    rw [← hn, hreg1]
    rfl
  have hlen1 : r1.stack.length = n + 1 := by
    rw [hr1def]
    simp
  obtain ⟨mr2, hreg2, hat2⟩ := register_spec mr1 p (n + 1) hplain
  have hbase1 : (assocGet r1.routes m).getD MiddlewareRouter.new = mr1 := by
    rw [hr1def]
    show (assocGet (assocSet r.routes m mr1) m).getD MiddlewareRouter.new = _
    rw [assocGet_assocSet_self]
    rfl
  set r2 : Router :=
    ({ stack := r1.stack ++ [L2], middleware_matcher := r1.middleware_matcher,
       routes := assocSet r1.routes m mr2 } : Router) with hr2def
  have hr2 : r1.route p h2 m (fun rt => rt.addMethod m h2) = some r2 := by
    unfold Router.route
    dsimp only
    rw [hlen1, hbase1, hreg2]
    rfl
  have hat2' : mr2.at p = some ⟨v0 ++ [n, n + 1], ps0⟩ := by
    rw [hat2, hat1]
    show some (⟨(v0 ++ [n]) ++ [n + 1], ps0⟩ : MMatch) = _
    rw [List.append_assoc]
    rfl
  have hroutes2 : assocGet r2.routes m = some mr2 := by
    rw [hr2def]
    exact assocGet_assocSet_self _ _ _
  have hatq : mr2.at q = some ⟨v0 ++ [n, n + 1], ps0⟩ := by
    rw [at_congr mr2 q p hq]
    exact hat2'
  refine ⟨r1, r2, hr1, hr2, ⟨mr2, hroutes2, hat2'⟩, ?_⟩
  -- the dispatch trace for the request (m, q)
  have hmm2 : r2.middleware_matcher = r.middleware_matcher := by
    rw [hr2def, hr1def]
  rcases hip : internParams it ps0 with ⟨it2, ps2⟩
  set req : Request := ⟨m, q, none⟩ with hreq
  set mwIdxs := (r.middleware_matcher.get_all_matches q).flatMap
    MMatch.value with hmwIdxs
  set matched := mwIdxs ++ (v0 ++ [n, n + 1]) with hmatched
  have hmp : r2.matchPhase it req
      = (it2, req.set_params ps2, matched) := by
    unfold Router.matchPhase
    rw [hroutes2]
    dsimp only
    rw [show MiddlewareRouter.at mr2 req.path = some ⟨v0 ++ [n, n + 1], ps0⟩
      from hatq]
    dsimp only
    rw [hip, hmm2]
  have hne : matched ≠ [] := by
    rw [hmatched]
    intro hcon
    rcases List.append_eq_nil.mp hcon with ⟨_, hcon2⟩
    rcases List.append_eq_nil.mp hcon2 with ⟨_, hcon3⟩
    cases hcon3
  set sorted := sortNat (dedupAdjacent matched) with hsorted
  -- every sorted index points at an always-next layer of r2
  have hstack2 : r2.stack = (r.stack ++ [L1]) ++ [L2] := by
    rw [hr2def, hr1def]
  have hgetlow : ∀ i, i < n → r2.stack[i]? = r.stack[i]? := by
    intro i hi
    rw [hstack2, List.getElem?_append_left (by simp; omega),
      List.getElem?_append_left (by omega)]
  have hgetn : r2.stack[n]? = some L1 := by
    rw [hstack2, List.getElem?_append_left (by simp),
      List.getElem?_append_right (by omega)]
    simp
  have hgetn1 : r2.stack[n + 1]? = some L2 := by
    rw [hstack2, List.getElem?_append_right (by simp)]
    simp
  have hL1next : LayerNext L1 := by
    refine ⟨hn1, ?_⟩
    intro rt hrt rh hrh
    have hrt' : some ((Route.new p).addMethod m h1) = some rt := hrt
    rw [← Option.some.inj hrt'] at hrh
    have hrh' : rh ∈ [(⟨some m, h1⟩ : RouteHandler)] := hrh
    rw [List.mem_singleton.mp hrh']
    exact hn1
  have hL2next : LayerNext L2 := by
    refine ⟨hn2, ?_⟩
    intro rt hrt rh hrh
    have hrt' : some ((Route.new p).addMethod m h2) = some rt := hrt
    rw [← Option.some.inj hrt'] at hrh
    have hrh' : rh ∈ [(⟨some m, h2⟩ : RouteHandler)] := hrh
    rw [List.mem_singleton.mp hrh']
    exact hn2
  have hvalid : ∀ i ∈ sorted, ∃ l, r2.stack[i]? = some l ∧ LayerNext l := by
    intro i hi
    have hi2 : i ∈ matched := by
      rw [hsorted] at hi
      exact (dedupAdjacent_mem matched i).mp ((sortNat_mem _ i).mp hi)
    rw [hmatched] at hi2
    rcases List.mem_append.mp hi2 with hi3 | hi3
    · have hlt : i < n := hmw i hi3
      have hsome : r.stack[i]? = some r.stack[i] :=
        List.getElem?_eq_getElem hlt
      refine ⟨r.stack[i], ?_, hstack _ (List.getElem_mem hlt)⟩
      rw [hgetlow i hlt, hsome]
    · rcases List.mem_append.mp hi3 with hi4 | hi4
      · have hlt : i < n := hold i hi4
        have hsome : r.stack[i]? = some r.stack[i] :=
          List.getElem?_eq_getElem hlt
        refine ⟨r.stack[i], ?_, hstack _ (List.getElem_mem hlt)⟩
        rw [hgetlow i hlt, hsome]
      · rcases List.mem_cons.mp hi4 with hi5 | hi5
        · subst hi5
          exact ⟨L1, hgetn, hL1next⟩
        · rcases List.mem_singleton.mp hi5 with hi6
          subst hi6
          exact ⟨L2, hgetn1, hL2next⟩
  obtain ⟨req', res', pmm', hexec⟩ :=
    execLayers_all sorted r2.stack (req.set_params ps2).method
      (req.set_params ps2) res [] false hvalid
  have hevents : (r2.handle it req res).2.2.2
      = sorted.flatMap (layerEvents r2.stack (req.set_params ps2).method) := by
    unfold Router.handle
    rw [hmp]
    dsimp only
    rw [if_neg hne]
    rw [← hsorted, hexec]
    dsimp only
    cases pmm' <;> simp
  rw [hevents]
  -- the two route layers appear in order in the trace
  have hnmem : n ∈ sorted := by
    rw [hsorted, sortNat_mem, dedupAdjacent_mem, hmatched]
    refine List.mem_append.mpr (Or.inr ?_)
    refine List.mem_append.mpr (Or.inr ?_)
    exact List.mem_cons_self _ _
  have hn1mem : n + 1 ∈ sorted := by
    rw [hsorted, sortNat_mem, dedupAdjacent_mem, hmatched]
    refine List.mem_append.mpr (Or.inr ?_)
    refine List.mem_append.mpr (Or.inr ?_)
    exact List.mem_cons_of_mem _ (List.mem_cons_self _ _)
  have hpair : [n, n + 1].Sublist sorted :=
    sorted_pair_sublist sorted n (n + 1) (sortNat_sorted _) hnmem hn1mem
      (Nat.lt_succ_self n)
  have hsub := sublist_flatMap
    (layerEvents r2.stack (req.set_params ps2).method) hpair
  have hmethod : (req.set_params ps2).method = m := rfl
  have hblock : [n, n + 1].flatMap
      (layerEvents r2.stack (req.set_params ps2).method)
      = [Event.routeHandler n 0, Event.routeHandler (n + 1) 0] := by
    rw [hmethod]
    rw [show [n, n + 1].flatMap (layerEvents r2.stack m)
      = layerEvents r2.stack m n ++ (layerEvents r2.stack m (n + 1) ++ [])
      from rfl]
    rw [layerEvents, hgetn, layerEvents, hgetn1]
    dsimp only
    simp [Route.addMethod, Route.new, List.range_succ]
  rw [hblock] at hsub
  exact hsub

/-- **C5 (witness).** The twice-registered-route theorem applied to the
empty router, the pattern `/users`, method POST, and two pass-through
handlers: registration yields layer indices 0 and 1 collected in one matcher
entry `[0, 1]`, and a POST `/users` request executes both in order. -/
theorem C5_witness :
    ∃ r1 r2,
      Router.default.route "/users" passHandler "POST"
        (fun rt => rt.addMethod "POST" passHandler) = some r1 ∧
      r1.route "/users" passHandler "POST"
        (fun rt => rt.addMethod "POST" passHandler) = some r2 ∧
      (∃ mr2, assocGet r2.routes "POST" = some mr2 ∧
        mr2.at "/users" = some ⟨[0, 1], []⟩) ∧
      List.Sublist [Event.routeHandler 0 0, Event.routeHandler 1 0]
        ((r2.handle Interner.default ⟨"POST", "/users", none⟩
          res200).2.2.2) := by
  have hplain : ∀ part ∈ split_path "/users", PlainPart part := by
    intro part hp
    rw [show split_path "/users" = ["users"] from by decide] at hp
    rw [List.mem_singleton.mp hp]
    exact ⟨by decide, by decide, by decide⟩
  exact C5_two_handlers_one_pattern Router.default "/users" "/users" "POST"
    passHandler passHandler Interner.default res200 hplain rfl
    (fun _ _ => rfl) (fun _ _ => rfl)
    (fun l hl => absurd hl (List.not_mem_nil l))
    (by decide) (by decide)

end ExpressRs
